import Mathlib

/-!
Verification of the Blueprint template engine (loader, composer, renderer).

The Go sources are shallowly embedded:

* `internal/template/model.go` / the tagged model file → the `Template`,
  `Variable`, `Include`, `File`, `PostInit` structures below.  The Go
  `Type` field is named `Type'` (Lean reserves `Type`); the dynamically
  typed `Default` payload is kept opaque as an `Option String` (no code
  under verification ever inspects its value).
* the composer file (`Compose`, `composeWithPath`, `mergeTemplate`,
  `mergeDependencies`, `parseDependency`, `ComposeWithEnabledIncludes`,
  `GetAllIncludes`, `getAllIncludesWithPath`) → the functions of the same
  names.  The loader interface passed to `NewComposer` becomes an
  association list `Env` mapping template identities to templates;
  `loadT` is the `Load` call.  Go's unbounded recursion is embedded with
  an explicit fuel argument (constructor `ComposeError.fuelOut`); a
  concrete sufficient fuel is computed by `composeFuel`, and we prove the
  fuel artifact is unreachable, which is the termination claim.
* Go maps with nondeterministic iteration order (`mergeDependencies`'
  `depMap`) are embedded as insertion-ordered association lists; no
  theorem below relies on the order of the merged dependency list beyond
  what the Go map guarantees (key uniqueness and membership).
-/

namespace Blueprint

/-- Semantic template type (Go `type Type string`). -/
abbrev TemplateType := String

def TypeProject : TemplateType := "project"

def TypeFeature : TemplateType := "feature"

def TypeComponent : TemplateType := "component"

/-- Go `Variable`.  `Type'` is the Go field `Type`; `Default` is the Go
`any`-typed default, kept opaque. -/
structure Variable where
  Name : String
  Prompt : String := ""
  Type' : String := ""
  Role : String := ""
  Default : Option String := none
  Options : List String := []
deriving DecidableEq, Repr

/-- Go `Include`. -/
structure Include where
  Template : String
  EnabledByDefault : Bool := false
deriving DecidableEq, Repr

/-- Go `File`. -/
structure File where
  Src : String
  Dest : String
deriving DecidableEq, Repr

/-- Go `PostInit`. -/
structure PostInit where
  Command : String
  WorkDir : String := ""
deriving DecidableEq, Repr

/-- Go `Template`. -/
structure Template where
  Name : String
  Type' : TemplateType := ""
  Version : String := ""
  Description : String := ""
  Variables : List Variable := []
  Includes : List Include := []
  Dependencies : List String := []
  Files : List File := []
  PostInit : List PostInit := []
deriving DecidableEq, Repr

/-- The composer's `Loader` collaborator: a finite map from template
identity to template, looked up by `Load`. -/
abbrev Env := List (String × Template)

/-- The `Load` call made by the composer: association-list lookup.
`none` models a `Load` error. -/
def loadT (env : Env) (name : String) : Option Template :=
  (env.find? (fun p => p.fst == name)).map Prod.snd

/-- Errors produced by the composer.  `circular` carries the reported
path (the visited path with the offending identity appended, exactly the
data printed by Go's `"circular dependency detected: %v -> %s"`);
`loadFailed` is a failed `Load` of an include; `fuelOut` is the
embedding's fuel artifact, proved unreachable below. -/
inductive ComposeError where
  | circular (path : List String)
  | loadFailed (name : String)
  | fuelOut
deriving DecidableEq, Repr

/-- The variable-merge loop of `mergeTemplate`: append each `src`
variable whose name is not yet present (Go's `existingVars` set is
exactly the set of names in the accumulator). -/
def mergeVars (dst src : List Variable) : List Variable :=
  src.foldl
    (fun acc v => if acc.any (fun w => w.Name == v.Name) then acc else acc ++ [v])
    dst

/-- The file-merge loop of `mergeTemplate`: append each `src` file whose
destination is not yet present. -/
def mergeFiles (dst src : List File) : List File :=
  src.foldl
    (fun acc f => if acc.any (fun g => g.Dest == f.Dest) then acc else acc ++ [f])
    dst

/-- The scanning loop of Go `parseDependency`: walk the characters and
split at the first `@`; `none` when there is no `@`.  Go iterates byte
positions of the string; this embedding iterates characters, which
coincides for the ASCII dependency strings the format uses. -/
def parseDepChars : List Char → Option (List Char × List Char)
  | [] => none
  | c :: cs =>
    if c = '@' then some ([], cs)
    else
      match parseDepChars cs with
      | none => none
      | some q => some (c :: q.fst, q.snd)

/-- Go `parseDependency`: split on the first `@`, returning
`(package, version)` with an empty version when there is no `@`. -/
def parseDependency (dep : String) : String × String :=
  match parseDepChars dep.toList with
  | some q => (String.mk q.fst, String.mk q.snd)
  | none => (dep, "")

/-- One unconditional `depMap[pkg] = version` store (the `dst` pass of
`mergeDependencies`). -/
def setDep (m : List (String × String)) (pkg ver : String) : List (String × String) :=
  if m.any (fun p => p.fst == pkg) then
    m.map (fun p => if p.fst == pkg then (pkg, ver) else p)
  else
    m ++ [(pkg, ver)]

/-- The conditional store of the `src` pass of `mergeDependencies`:
`if existing, ok := depMap[pkg]; !ok || existing == ""`. -/
def setDepIfUnversioned (m : List (String × String)) (pkg ver : String) :
    List (String × String) :=
  match m.find? (fun p => p.fst == pkg) with
  | none => m ++ [(pkg, ver)]
  | some q => if q.snd == "" then m.map (fun p => if p.fst == pkg then (pkg, ver) else p) else m

/-- The two passes of `mergeDependencies` filling `depMap`: the `dst`
pass stores unconditionally, the `src` pass only when the package is
absent or stored without a version. -/
def depMapMerge (dst src : List String) : List (String × String) :=
  src.foldl
    (fun m dep => setDepIfUnversioned m (parseDependency dep).fst (parseDependency dep).snd)
    (dst.foldl (fun m dep => setDep m (parseDependency dep).fst (parseDependency dep).snd) [])

/-- The rendering step of `mergeDependencies`: `pkg` or `pkg@version`. -/
def renderDep (p : String × String) : String :=
  if p.snd == "" then p.fst else p.fst ++ "@" ++ p.snd

/-- Go `mergeDependencies`.  The Go map is embedded as an
insertion-ordered association list; the final rendering loop prints one
entry per stored pair. -/
def mergeDependencies (dst src : List String) : List String :=
  (depMapMerge dst src).map renderDep

/-- Go `mergeTemplate`: merge `src` into `dst` (variables first-wins by
name, files first-wins by destination, dependency map merge, post-init
concatenation; the identity fields of `dst` are untouched). -/
def mergeTemplate (dst src : Template) : Template :=
  { dst with
    Variables := mergeVars dst.Variables src.Variables
    Dependencies := mergeDependencies dst.Dependencies src.Dependencies
    Files := mergeFiles dst.Files src.Files
    PostInit := dst.PostInit ++ src.PostInit }

/-- The fresh accumulator built at the top of `composeWithPath`: a copy
of the template with an empty `Includes` slice. -/
def initCopy (tmpl : Template) : Template :=
  { tmpl with Includes := [] }

/-- The include loop of Go `composeWithPath`, with explicit fuel.  For
each include in declaration order: fail on a path hit (circular), `Load`
it, recursively compose it with the extended path, and merge the result
into the accumulator.  Entering `composeWithPath` for a template `t` is
`composeIncludes fuel t.Includes (initCopy t) path`. -/
def composeIncludes (env : Env) : Nat → List Include → Template → List String →
    Except ComposeError Template
  | 0, _, _, _ => .error .fuelOut
  | _ + 1, [], acc, _ => .ok acc
  | fuel + 1, inc :: rest, acc, path =>
    if inc.Template ∈ path then
      .error (.circular (path ++ [inc.Template]))
    else
      match loadT env inc.Template with
      | none => .error (.loadFailed inc.Template)
      | some t' =>
        match composeIncludes env fuel t'.Includes (initCopy t') (path ++ [inc.Template]) with
        | .error e => .error e
        | .ok resolved => composeIncludes env fuel rest (mergeTemplate acc resolved) path

/-- Go `composeWithPath tmpl path`. -/
def composeWithPath (env : Env) (fuel : Nat) (tmpl : Template) (path : List String) :
    Except ComposeError Template :=
  composeIncludes env fuel tmpl.Includes (initCopy tmpl) path

/-- An upper bound on the number of includes any loop can iterate over. -/
def maxIncs (env : Env) (tmpl : Template) : Nat :=
  (env.map (fun p => p.snd.Includes.length)).foldr max tmpl.Includes.length

/-- A concrete sufficient fuel for composing `tmpl` against `env`;
proved sufficient below (`composeFuel_no_fuelOut`). -/
def composeFuel (env : Env) (tmpl : Template) : Nat :=
  (env.length + 1) * (maxIncs env tmpl + 1) + tmpl.Includes.length + 1

/-- Go `Compose`: compose with the initial path `[tmpl.Name]`. -/
def Compose (env : Env) (tmpl : Template) : Except ComposeError Template :=
  composeWithPath env (composeFuel env tmpl) tmpl [tmpl.Name]

/-- The include filter of `ComposeWithEnabledIncludes`: keep an include
when the enabled map explicitly maps it to true, or when it has no entry
and `EnabledByDefault` is set. -/
def enabledKeep (enabledIncludes : List (String × Bool)) (inc : Include) : Bool :=
  match enabledIncludes.find? (fun p => p.fst == inc.Template) with
  | some q => q.snd
  | none => inc.EnabledByDefault

/-- Go `ComposeWithEnabledIncludes`: filter only the direct includes of
`tmpl`, then `Compose` the filtered template. -/
def ComposeWithEnabledIncludes (env : Env) (tmpl : Template)
    (enabledIncludes : List (String × Bool)) : Except ComposeError Template :=
  Compose env { tmpl with Includes := tmpl.Includes.filter (enabledKeep enabledIncludes) }

/-- The dedup-append loop of `getAllIncludesWithPath`: append each
include whose identity is unseen (Go's `seen` set is exactly the set of
identities in the accumulator). -/
def addIncludes (acc : List Include) (ts : List Include) : List Include :=
  ts.foldl
    (fun a i => if a.any (fun j => j.Template == i.Template) then a else a ++ [i])
    acc

/-- The include loop of Go `getAllIncludesWithPath`, with explicit fuel:
cycle check, record the include if unseen, `Load`, recurse, and fold the
transitive includes in, deduplicated by identity. -/
def collectIncludes (env : Env) : Nat → List Include → List Include → List String →
    Except ComposeError (List Include)
  | 0, _, _, _ => .error .fuelOut
  | _ + 1, [], acc, _ => .ok acc
  | fuel + 1, inc :: rest, acc, path =>
    if inc.Template ∈ path then
      .error (.circular (path ++ [inc.Template]))
    else
      let acc' := addIncludes acc [inc]
      match loadT env inc.Template with
      | none => .error (.loadFailed inc.Template)
      | some t' =>
        match collectIncludes env fuel t'.Includes [] (path ++ [inc.Template]) with
        | .error e => .error e
        | .ok tincs => collectIncludes env fuel rest (addIncludes acc' tincs) path

/-- Go `getAllIncludesWithPath tmpl path`. -/
def getAllIncludesWithPath (env : Env) (fuel : Nat) (tmpl : Template) (path : List String) :
    Except ComposeError (List Include) :=
  collectIncludes env fuel tmpl.Includes [] path

/-- Go `GetAllIncludes`. -/
def GetAllIncludes (env : Env) (tmpl : Template) : Except ComposeError (List Include) :=
  getAllIncludesWithPath env (composeFuel env tmpl) tmpl [tmpl.Name]

/-! ### Reachability in the include graph

`ReachT env t n` states that identity `n` is reachable from the template
value `t`: it is declared by one of `t`'s includes, or reachable from a
template loaded for one of them. -/

inductive ReachT (env : Env) : Template → String → Prop
  | direct {t : Template} {inc : Include} : inc ∈ t.Includes → ReachT env t inc.Template
  | step {t : Template} {inc : Include} {t' : Template} {n : String} :
      inc ∈ t.Includes → loadT env inc.Template = some t' → ReachT env t' n → ReachT env t n

/-- The depth-first enumeration of the templates composed by the include
loop: for each include, the loaded template followed by its own
reachable templates, then the remaining includes.  It mirrors
`composeIncludes`' control flow (same fuel discipline); the abort
branches of the composer (cycle hit, load failure, fuel exhaustion)
yield `[]` here and are proved unreachable under the claims'
hypotheses. -/
def reachIncs (env : Env) : Nat → List Include → List String → List Template
  | 0, _, _ => []
  | _ + 1, [], _ => []
  | fuel + 1, inc :: rest, path =>
    if inc.Template ∈ path then []
    else
      match loadT env inc.Template with
      | none => []
      | some t' =>
        (t' :: reachIncs env fuel t'.Includes (path ++ [inc.Template])) ++
          reachIncs env fuel rest path

/-- All templates composed for `tmpl`: the root itself, then the
depth-first enumeration of its includes. -/
def reachList (env : Env) (fuel : Nat) (tmpl : Template) (path : List String) : List Template :=
  tmpl :: reachIncs env fuel tmpl.Includes path

/-! ### Generic first-occurrence deduplication

Both merge loops of `mergeTemplate` (variables keyed by name, files
keyed by destination) are instances of `dedupApp`. -/

def dedupApp {α : Type} (key : α → String) (acc : List α) : List α → List α
  | [] => acc
  | x :: l =>
    if acc.any (fun y => key y == key x) then dedupApp key acc l
    else dedupApp key (acc ++ [x]) l

/-! ### Fuel accounting

`missing env path` counts environment keys not yet on the path; it
strictly decreases each time the composer descends into an include, and
`composeFuel` dominates the resulting bound. -/

def missing (env : Env) (path : List String) : Nat :=
  ((env.map Prod.fst).filter (fun k => decide (k ∉ path))).length

/-! ### Enabled-include filtering -/

def base5 : Template :=
  { Name := "base", Type' := "project", Version := "1.0.0",
    Includes := [{ Template := "logging", EnabledByDefault := true },
                 { Template := "metrics", EnabledByDefault := false }] }

def logging5 : Template :=
  { Name := "logging", Type' := "feature", Version := "1.0.0",
    Variables := [{ Name := "log_level", Type' := "string" }],
    Includes := [{ Template := "tracing", EnabledByDefault := false }],
    Dependencies := ["zap@1.26.0"] }

def metrics5 : Template :=
  { Name := "metrics", Type' := "feature", Version := "1.0.0",
    Variables := [{ Name := "metrics_port", Type' := "int" }],
    Dependencies := ["prometheus"] }

def tracing5 : Template :=
  { Name := "tracing", Type' := "feature", Version := "1.0.0",
    Variables := [{ Name := "trace_id", Type' := "string" }] }

def env5 : Env := [("logging", logging5), ("metrics", metrics5), ("tracing", tracing5)]

def depKeys (m : List (String × String)) : List String := m.map Prod.fst

/-- Invariant of the dependency map: keys are pairwise distinct and
contain no `@` (they come out of `parseDependency`). -/
def DepInv (m : List (String × String)) : Prop :=
  (depKeys m).Nodup ∧ ∀ q ∈ m, '@' ∉ q.fst.toList

/-! ### Dependency merge: version preference -/

def depLookup (m : List (String × String)) (pkg : String) : Option String :=
  (m.find? (fun p => p.fst == pkg)).map Prod.snd

/-! ### Loader

`FileLoader.Load` reads a `template.yaml` (the filesystem becomes an
association list from path to raw content, YAML unmarshalling an
abstract parser), validates the template, and rewrites every `File.Src`
relative to the template directory.  `validateTemplate` spells out the
go-playground validator semantics of the struct tags on the model:
`required` on a string is non-emptiness, `oneof` restricts to the listed
values, `dive` validates each element, and `required_if=Type select` /
`required_if=Type multiselect` require non-empty `Options`.  The path
helpers simplify Go's `filepath` cleaning, which the claims do not
exercise. -/

def FileName : String := "template.yaml"

def pathParts (p : String) : List (List Char) := p.toList.splitOn '/'

def lastComponent (p : String) : String := String.mk ((pathParts p).getLastD p.toList)

def dirOf (p : String) : String :=
  match (pathParts p).dropLast with
  | [] => "."
  | q :: rest => String.mk (rest.foldl (fun a b => a ++ '/' :: b) q)

def joinPath (a b : String) : String :=
  if a = "" then b else if b = "" then a else a ++ "/" ++ b

def resolveTemplatePath (path : String) : String :=
  if lastComponent path == FileName then path else joinPath path FileName

inductive LoadError where
  | notFound (path : String)
  | parseError (path : String)
  | validationError
deriving DecidableEq, Repr

def validateVariable (v : Variable) : Bool :=
  !(v.Name == "") &&
  (v.Type' == "string" || v.Type' == "int" || v.Type' == "bool" ||
    v.Type' == "select" || v.Type' == "multiselect") &&
  (!(v.Type' == "select") || !v.Options.isEmpty) &&
  (!(v.Type' == "multiselect") || !v.Options.isEmpty)

def validateTemplate (t : Template) : Bool :=
  !(t.Name == "") &&
  (t.Type' == "project" || t.Type' == "feature" || t.Type' == "component") &&
  !(t.Version == "") &&
  t.Variables.all validateVariable &&
  t.Includes.all (fun i => !(i.Template == "")) &&
  t.Files.all (fun f => !(f.Src == "") && !(f.Dest == "")) &&
  t.PostInit.all (fun p => !(p.Command == ""))

/-- The `Src`-rewriting loop at the end of `FileLoader.Load`: each
`File.Src` becomes relative to the template directory. -/
def rewriteSrc (templatePath : String) (t : Template) : Template :=
  { t with
    Files := t.Files.map (fun f => { f with Src := joinPath (dirOf templatePath) f.Src }) }

/-- Go `FileLoader.Load`: resolve the path, read the file, unmarshal,
validate, then rewrite each `File.Src` under the template directory.
Every error constructor carries no template: no partial result. -/
def Load (fsL : List (String × String)) (yamlParse : String → Option Template)
    (path : String) : Except LoadError Template :=
  let templatePath := resolveTemplatePath path
  match (fsL.find? (fun p => p.fst == templatePath)).map Prod.snd with
  | none => .error (.notFound templatePath)
  | some data =>
    match yamlParse data with
    | none => .error (.parseError templatePath)
    | some tmpl =>
      if validateTemplate tmpl then
        .ok (rewriteSrc templatePath tmpl)
      else
        .error .validationError

/-- The required-field constraints as the (amended) claim lists them:
non-empty name, enumerated type, non-empty version, enumerated variable
types with non-empty options for select/multiselect, and the per-entry
required fields of includes, files and post-init commands.  (The claim's
additional "non-empty Files" requirement is *not* here: the validator
tags place no `required` on the Files slice, and the repository's own
tests load file-less templates successfully.) -/
def ValidTemplateSpec (t : Template) : Prop :=
  t.Name ≠ "" ∧
  (t.Type' = "project" ∨ t.Type' = "feature" ∨ t.Type' = "component") ∧
  t.Version ≠ "" ∧
  (∀ v ∈ t.Variables, v.Name ≠ "" ∧
    (v.Type' = "string" ∨ v.Type' = "int" ∨ v.Type' = "bool" ∨
      v.Type' = "select" ∨ v.Type' = "multiselect") ∧
    ((v.Type' = "select" ∨ v.Type' = "multiselect") → v.Options ≠ [])) ∧
  (∀ i ∈ t.Includes, i.Template ≠ "") ∧
  (∀ f ∈ t.Files, f.Src ≠ "" ∧ f.Dest ≠ "") ∧
  (∀ p ∈ t.PostInit, p.Command ≠ "")

def emptyFilesTmpl : Template := { Name := "svc", Type' := "project", Version := "1.0.0" }

/-! ### Renderer

The Go `text/template` engine is abstracted as a `TemplateLang`: `parse`
compiles a source string (the compiled template kept opaque as a
`String` payload), `exec` runs a compiled template against the context's
variable map; the function library lives inside `exec`'s behaviour, and
the renderer theorems quantify over every such engine.  The filesystem
is an association list from path to entry; the Go output map
`results[dest] = content` is the association-list store `setDep`.
Go's unbounded directory recursion carries an explicit fuel argument. -/

inductive FsEntry where
  | file (content : String)
  | dir (entries : List String)
deriving DecidableEq, Repr

abbrev Fs := List (String × FsEntry)

def statFs (fs : Fs) (p : String) : Option FsEntry :=
  (fs.find? (fun q => q.fst == p)).map Prod.snd

def readFileFs (fs : Fs) (p : String) : Option String :=
  match statFs fs p with
  | some (.file c) => some c
  | _ => none

def readDirFs (fs : Fs) (p : String) : Option (List String) :=
  match statFs fs p with
  | some (.dir es) => some es
  | _ => none

/-- Go `Context`. -/
structure Context where
  Variables : List (String × String)
deriving DecidableEq, Repr

/-- The abstracted template language (Go `text/template` with the
renderer's funcMap). -/
structure TemplateLang where
  parse : String → Except String String
  exec : String → List (String × String) → Except String String

/-- Go `Renderer.RenderString`: parse, then execute. -/
def RenderString (L : TemplateLang) (content : String) (ctx : Context) (name : String) :
    Except String String :=
  match L.parse content with
  | .error e => .error ("failed to parse template " ++ name ++ ": " ++ e)
  | .ok t =>
    match L.exec t ctx.Variables with
    | .error e => .error ("failed to execute template " ++ name ++ ": " ++ e)
    | .ok s => .ok s

/-- Go `Renderer.Render`: read the file, then `RenderString`. -/
def Render (L : TemplateLang) (fs : Fs) (templatePath : String) (ctx : Context) :
    Except String String :=
  match readFileFs fs templatePath with
  | none => .error ("failed to read template file " ++ templatePath)
  | some content => RenderString L content ctx templatePath

/-- Go `Renderer.RenderPath`. -/
def RenderPath (L : TemplateLang) (pathTemplate : String) (ctx : Context) :
    Except String String :=
  RenderString L pathTemplate ctx "path"

/-- Go `Renderer.Copy`: read the file without template processing. -/
def Copy (fs : Fs) (filePath : String) : Except String String :=
  match readFileFs fs filePath with
  | none => .error ("failed to read file " ++ filePath)
  | some content => .ok content

/-- Go `isTemplateFile`: `.tmpl` suffix check. -/
def isTemplateFile (path : String) : Bool :=
  List.isSuffixOf ".tmpl".toList path.toList

/-- Go `stripTemplateExt` (`strings.TrimSuffix`): drop the 5-character
marker suffix when present. -/
def stripTemplateExt (path : String) : String :=
  if isTemplateFile path then
    String.mk (path.toList.take (path.toList.length - 5))
  else path

/-- Go `processFile`: render the destination path; for a marker-suffixed
source strip the suffix from the rendered destination and render the
content, otherwise copy the bytes; store at the final destination. -/
def processFile (L : TemplateLang) (fs : Fs) (ctx : Context) (srcPath destPath : String)
    (results : List (String × String)) : Except String (List (String × String)) :=
  match RenderPath L destPath ctx with
  | .error e => .error ("failed to render destination path for " ++ srcPath ++ ": " ++ e)
  | .ok renderedDestPath =>
    if isTemplateFile srcPath then
      match Render L fs srcPath ctx with
      | .error e => .error e
      | .ok content => .ok (setDep results (stripTemplateExt renderedDestPath) content)
    else
      match Copy fs srcPath with
      | .error e => .error e
      | .ok content => .ok (setDep results renderedDestPath content)

/-- Go `processPath` / `processDirectory` fused, with fuel: stat the
source; recurse over directory entries (joined paths) or process the
single file. -/
def processPath (L : TemplateLang) (fs : Fs) (ctx : Context) :
    Nat → String → String → List (String × String) → Except String (List (String × String))
  | 0, _, _, _ => .error "render recursion fuel exhausted"
  | fuel + 1, srcPath, destPath, results =>
    match statFs fs srcPath with
    | none => .error ("failed to stat " ++ srcPath)
    | some (.dir _) =>
      match readDirFs fs srcPath with
      | none => .error ("failed to read directory " ++ srcPath)
      | some entries =>
        entries.foldlM
          (fun res name =>
            processPath L fs ctx fuel (joinPath srcPath name) (joinPath destPath name) res)
          results
    | some (.file _) => processFile L fs ctx srcPath destPath results

/-- Go `RenderAll`: process every `File` entry in declared order into
one shared output map, aborting on the first error. -/
def RenderAll (L : TemplateLang) (fs : Fs) (fuel : Nat) (tmpl : Template) (ctx : Context) :
    Except String (List (String × String)) :=
  tmpl.Files.foldlM (fun res file => processPath L fs ctx fuel file.Src file.Dest res) []

/-- Specification-side companion of `processFile`: the single rendered
(destination, content) pair instead of a map update. -/
def processFileSeq (L : TemplateLang) (fs : Fs) (ctx : Context) (srcPath destPath : String) :
    Except String (List (String × String)) :=
  match RenderPath L destPath ctx with
  | .error e => .error ("failed to render destination path for " ++ srcPath ++ ": " ++ e)
  | .ok renderedDestPath =>
    if isTemplateFile srcPath then
      (Render L fs srcPath ctx).map (fun content => [(stripTemplateExt renderedDestPath, content)])
    else
      (Copy fs srcPath).map (fun content => [(renderedDestPath, content)])

/-- Specification-side companion of `processPath`: the ordered sequence
of rendered (destination, content) pairs. -/
def processPathSeq (L : TemplateLang) (fs : Fs) (ctx : Context) :
    Nat → String → String → Except String (List (String × String))
  | 0, _, _ => .error "render recursion fuel exhausted"
  | fuel + 1, srcPath, destPath =>
    match statFs fs srcPath with
    | none => .error ("failed to stat " ++ srcPath)
    | some (.dir _) =>
      match readDirFs fs srcPath with
      | none => .error ("failed to read directory " ++ srcPath)
      | some entries =>
        entries.foldlM
          (fun acc name =>
            (processPathSeq L fs ctx fuel (joinPath srcPath name)
              (joinPath destPath name)).map (fun l => acc ++ l))
          []
    | some (.file _) => processFileSeq L fs ctx srcPath destPath

/-- Specification-side companion of `RenderAll`. -/
def RenderAllSeq (L : TemplateLang) (fs : Fs) (fuel : Nat) (tmpl : Template) (ctx : Context) :
    Except String (List (String × String)) :=
  tmpl.Files.foldlM
    (fun acc file =>
      (processPathSeq L fs ctx fuel file.Src file.Dest).map (fun l => acc ++ l))
    []

/-- Replaying a sequence of rendered pairs into the output map. -/
def pushAll (results : List (String × String)) (l : List (String × String)) :
    List (String × String) :=
  l.foldl (fun m q => setDep m q.fst q.snd) results

/-- The last pair of the sequence with the given destination. -/
def lastWins (l : List (String × String)) (k : String) : Option String :=
  (l.reverse.find? (fun q => q.fst == k)).map Prod.snd

/-- A template language whose programs are literal strings: parsing and
execution both succeed and return the text unchanged. -/
def litLang : TemplateLang where
  parse := fun s => .ok s
  exec := fun s _ => .ok s

/-- A template language that rejects exactly the program "!bad" at parse
time and otherwise returns the text unchanged. -/
def selLang : TemplateLang where
  parse := fun s => if s = "!bad" then .error "unexpected token" else .ok s
  exec := fun s _ => .ok s

/-- Source tree for the collision example: two distinct plain files. -/
def fsC3 : Fs :=
  [("a.txt", .file "first content"), ("b.txt", .file "second content")]

/-- A template whose two File entries render to the same destination. -/
def tmplC3 : Template :=
  { Name := "demo", Type' := "project", Version := "1.0.0",
    Files := [⟨"a.txt", "out.txt"⟩, ⟨"b.txt", "out.txt"⟩] }

/-- Source tree for the marker example: one marker-suffixed file and one
plain file. -/
def fsC7 : Fs :=
  [("config.go.tmpl", .file "hello"), ("data.json", .file "bytes")]

/-- Source tree for the fail-fast example: a plain file and a
marker-suffixed file whose content fails to parse under `selLang`. -/
def fsC8 : Fs :=
  [("good.txt", .file "good content"), ("bad.go.tmpl", .file "!bad")]

/-- A template rendering one good file, then one file whose content fails
to parse. -/
def tmplC8 : Template :=
  { Name := "demo8", Type' := "project", Version := "1.0.0",
    Files := [⟨"good.txt", "good.txt"⟩, ⟨"bad.go.tmpl", "bad.go.tmpl"⟩] }

/-- Acyclic concrete instance: a leaf feature. -/
def logC1 : Template :=
  { Name := "log-feature", Type' := "feature", Version := "1.0.0",
    Variables := [{ Name := "log_level", Type' := "string" }],
    Files := [⟨"log.go.tmpl", "log.go"⟩] }

/-- Acyclic concrete instance: a feature including the leaf. -/
def libC1 : Template :=
  { Name := "lib-feature", Type' := "feature", Version := "1.0.0",
    Variables := [{ Name := "lib_name", Type' := "string" }],
    Includes := [{ Template := "log" }],
    Files := [⟨"lib.go.tmpl", "lib.go"⟩] }

/-- Acyclic concrete instance: the root project. -/
def rootC1 : Template :=
  { Name := "root", Type' := "project", Version := "1.0.0",
    Variables := [{ Name := "app_name", Type' := "string" }],
    Includes := [{ Template := "lib" }],
    Files := [⟨"main.go.tmpl", "main.go"⟩] }

def envC1 : Env := [("lib", libC1), ("log", logC1)]

/-- A topological rank for `envC1`/`rootC1`. -/
def rankC1 : String → Nat :=
  fun n => if n = "root" then 2 else if n = "lib" then 1 else 0

/-- Cyclic concrete instance: two features including each other. -/
def aC2 : Template :=
  { Name := "a-feature", Type' := "feature", Version := "1.0.0",
    Includes := [{ Template := "b" }] }

def bC2 : Template :=
  { Name := "b-feature", Type' := "feature", Version := "1.0.0",
    Includes := [{ Template := "a" }] }

def rootC2 : Template :=
  { Name := "root2", Type' := "project", Version := "1.0.0",
    Includes := [{ Template := "a" }] }

def envC2 : Env := [("a", aC2), ("b", bC2)]

/-- A well-formed template definition for the loader instance. -/
def tC4 : Template :=
  { Name := "web", Type' := "project", Version := "1.0.0",
    Files := [⟨"main.go.tmpl", "main.go"⟩] }

def fsLC4 : List (String × String) := [("web/template.yaml", "raw4")]

theorem ReachT.through {env : Env} {t : Template} {n : String} {t'' : Template} {m : String} :
    ReachT env t n → loadT env n = some t'' → ReachT env t'' m → ReachT env t m := by
  intro h
  induction h with
  | direct hmem => intro hl hr; exact ReachT.step hmem hl hr
  | step hmem hload _ ih => intro hl hr; exact ReachT.step hmem hload (ih hl hr)

theorem foldl_eq_dedupApp {α : Type} (key : α → String) :
    ∀ (l acc : List α),
      l.foldl (fun acc x => if acc.any (fun y => key y == key x) then acc else acc ++ [x]) acc =
        dedupApp key acc l := by
  intro l
  induction l with
  | nil => intro acc; rfl
  | cons x l ih =>
    intro acc
    simp only [List.foldl_cons, dedupApp]
    by_cases h : (acc.any fun y => key y == key x) = true
    · simp only [if_pos h]
      exact ih acc
    · simp only [if_neg h]
      exact ih (acc ++ [x])

theorem mergeVars_eq_dedupApp (dst src : List Variable) :
    mergeVars dst src = dedupApp (fun v : Variable => v.Name) dst src :=
  foldl_eq_dedupApp (fun v : Variable => v.Name) src dst

theorem mergeFiles_eq_dedupApp (dst src : List File) :
    mergeFiles dst src = dedupApp (fun f : File => f.Dest) dst src :=
  foldl_eq_dedupApp (fun f : File => f.Dest) src dst

theorem dedupApp_append {α : Type} (key : α → String) :
    ∀ (u : List α) (acc v : List α),
      dedupApp key acc (u ++ v) = dedupApp key (dedupApp key acc u) v := by
  intro u
  induction u with
  | nil => intro acc v; rfl
  | cons x u ih =>
    intro acc v
    simp only [List.cons_append, dedupApp]
    by_cases h : acc.any (fun y => key y == key x) <;> simp [h, ih]

theorem dedupApp_exists_key {α : Type} (key : α → String) (k : String) :
    ∀ (l acc : List α),
      (∃ y ∈ dedupApp key acc l, key y = k) ↔
        (∃ y ∈ acc, key y = k) ∨ (∃ y ∈ l, key y = k) := by
  intro l
  induction l with
  | nil => intro acc; simp [dedupApp]
  | cons x l ih =>
    intro acc
    simp only [dedupApp]
    by_cases h : acc.any (fun y => key y == key x)
    · rw [if_pos h, ih]
      have hx : ∃ y ∈ acc, key y = key x := by simpa using h
      constructor
      · rintro (h' | h')
        · exact Or.inl h'
        · obtain ⟨y, hy, hk⟩ := h'
          exact Or.inr ⟨y, List.mem_cons_of_mem _ hy, hk⟩
      · rintro (h' | h')
        · exact Or.inl h'
        · obtain ⟨y, hy, hk⟩ := h'
          rcases List.mem_cons.mp hy with rfl | hy'
          · obtain ⟨z, hz, hzk⟩ := hx
            exact Or.inl ⟨z, hz, hzk.trans hk⟩
          · exact Or.inr ⟨y, hy', hk⟩
    · rw [if_neg h, ih]
      constructor
      · rintro (h' | h')
        · obtain ⟨y, hy, hk⟩ := h'
          rcases List.mem_append.mp hy with hy' | hy'
          · exact Or.inl ⟨y, hy', hk⟩
          · simp only [List.mem_singleton] at hy'
            subst hy'
            exact Or.inr ⟨y, by simp, hk⟩
        · obtain ⟨y, hy, hk⟩ := h'
          exact Or.inr ⟨y, by simp [hy], hk⟩
      · rintro (h' | h')
        · obtain ⟨y, hy, hk⟩ := h'
          exact Or.inl ⟨y, by simp [hy], hk⟩
        · obtain ⟨y, hy, hk⟩ := h'
          rcases List.mem_cons.mp hy with rfl | hy'
          · exact Or.inl ⟨y, by simp, hk⟩
          · exact Or.inr ⟨y, hy', hk⟩

theorem dedupApp_absorb {α : Type} (key : α → String) :
    ∀ (l c acc : List α),
      dedupApp key acc (dedupApp key c l) = dedupApp key acc (c ++ l) := by
  intro l
  induction l with
  | nil => intro c acc; simp [dedupApp]
  | cons x l ih =>
    intro c acc
    simp only [dedupApp]
    by_cases h : c.any (fun y => key y == key x)
    · rw [if_pos h, ih]
      have hx : ∃ y ∈ c, key y = key x := by simpa using h
      have hx' : ∃ y ∈ dedupApp key acc c, key y = key x := by
        rw [dedupApp_exists_key]
        exact Or.inr hx
      have hany : (dedupApp key acc c).any (fun y => key y == key x) = true := by
        simpa using hx'
      rw [dedupApp_append, dedupApp_append, dedupApp]
      rw [if_pos hany]
    · rw [if_neg h, ih]
      have : (c ++ [x]) ++ l = c ++ x :: l := by simp
      rw [this]

theorem dedupApp_of_nodup {α : Type} (key : α → String) :
    ∀ (l acc : List α), (l.map key).Nodup →
      (∀ x ∈ l, ¬∃ y ∈ acc, key y = key x) →
      dedupApp key acc l = acc ++ l := by
  intro l
  induction l with
  | nil => intro acc _ _; simp [dedupApp]
  | cons x l ih =>
    intro acc hnd hdisj
    have hnd' := List.nodup_cons.mp (show (key x :: l.map key).Nodup by simpa using hnd)
    simp only [dedupApp]
    have hx : ¬∃ y ∈ acc, key y = key x := hdisj x (by simp)
    have hany : (acc.any fun y => key y == key x) = false := by
      rw [List.any_eq_false]
      intro y hy
      simp only [beq_iff_eq]
      exact fun hk => hx ⟨y, hy, hk⟩
    rw [hany]
    simp only [Bool.false_eq_true, if_false]
    have hside : ∀ z ∈ l, ¬∃ y ∈ acc ++ [x], key y = key z := by
      intro z hz hex
      obtain ⟨y, hy, hk⟩ := hex
      rcases List.mem_append.mp hy with hy' | hy'
      · exact hdisj z (List.mem_cons_of_mem _ hz) ⟨y, hy', hk⟩
      · simp only [List.mem_singleton] at hy'
        subst hy'
        apply hnd'.1
        rw [hk]
        exact List.mem_map_of_mem key hz
    rw [ih (acc ++ [x]) hnd'.2 hside]
    simp

theorem loadT_mem_keys {env : Env} {n : String} {t : Template} (h : loadT env n = some t) :
    n ∈ env.map Prod.fst := by
  unfold loadT at h
  cases hf : env.find? (fun p => p.fst == n) with
  | none => rw [hf] at h; simp at h
  | some p =>
    have hp : p.fst = n := by simpa using List.find?_some hf
    have hmem := List.mem_of_find?_eq_some hf
    exact hp ▸ List.mem_map_of_mem Prod.fst hmem

theorem loadT_mem_snd {env : Env} {n : String} {t : Template} (h : loadT env n = some t) :
    t ∈ env.map Prod.snd := by
  unfold loadT at h
  cases hf : env.find? (fun p => p.fst == n) with
  | none => rw [hf] at h; simp at h
  | some p =>
    rw [hf] at h
    have h' : p.snd = t := by simpa using h
    have hmem := List.mem_of_find?_eq_some hf
    exact h' ▸ List.mem_map_of_mem Prod.snd hmem

theorem le_foldr_max (b : Nat) : ∀ (l : List Nat), ∀ x ∈ l, x ≤ l.foldr max b := by
  intro l
  induction l with
  | nil => simp
  | cons a l ih =>
    intro x hx
    rcases List.mem_cons.mp hx with rfl | hx'
    · exact le_max_left _ _
    · exact le_trans (ih x hx') (le_max_right _ _)

theorem base_le_foldr_max (b : Nat) : ∀ (l : List Nat), b ≤ l.foldr max b := by
  intro l
  induction l with
  | nil => exact Nat.le_refl b
  | cons a l ih => exact le_trans ih (le_max_right _ _)

theorem maxIncs_env {env : Env} {root t : Template} (h : t ∈ env.map Prod.snd) :
    t.Includes.length ≤ maxIncs env root := by
  apply le_foldr_max
  obtain ⟨p, hp, rfl⟩ := List.mem_map.mp h
  exact List.mem_map.mpr ⟨p, hp, rfl⟩

theorem maxIncs_root (env : Env) (root : Template) :
    root.Includes.length ≤ maxIncs env root :=
  base_le_foldr_max _ _

theorem filter_not_mem_append_lt :
    ∀ (l path : List String) (t : String), t ∈ l → t ∉ path →
      (l.filter (fun k => decide (k ∉ path ++ [t]))).length <
        (l.filter (fun k => decide (k ∉ path))).length := by
  intro l
  induction l with
  | nil => simp
  | cons a l ih =>
    intro path t ht hp
    have hmono : (l.filter (fun k => decide (k ∉ path ++ [t]))).length ≤
        (l.filter (fun k => decide (k ∉ path))).length := by
      apply List.Sublist.length_le
      apply List.monotone_filter_right
      intro k hk
      simp only [decide_eq_true_eq] at hk ⊢
      intro hmem
      exact hk (List.mem_append_left _ hmem)
    rcases List.mem_cons.mp ht with rfl | ht'
    · simp only [List.filter_cons]
      have h1 : decide (t ∉ path ++ [t]) = false := by simp
      have h2 : decide (t ∉ path) = true := by simpa using hp
      rw [h1, h2]
      simpa using Nat.lt_succ_of_le hmono
    · by_cases h1 : a ∈ path
      · have e1 : decide (a ∉ path ++ [t]) = false := by simp [h1]
        have e2 : decide (a ∉ path) = false := by simp [h1]
        simp only [List.filter_cons, e1, e2]
        simpa using ih path t ht' hp
      · by_cases h3 : a = t
        · subst h3
          have e1 : decide (a ∉ path ++ [a]) = false := by simp
          have e2 : decide (a ∉ path) = true := by simpa using h1
          simp only [List.filter_cons, e1, e2]
          simpa using Nat.lt_succ_of_le hmono
        · have e1 : decide (a ∉ path ++ [t]) = true := by
            simp only [decide_eq_true_eq]
            intro hmem
            rcases List.mem_append.mp hmem with hm | hm
            · exact h1 hm
            · simp only [List.mem_singleton] at hm
              exact h3 hm
          have e2 : decide (a ∉ path) = true := by simpa using h1
          simp only [List.filter_cons, e1, e2]
          simpa using Nat.succ_lt_succ (ih path t ht' hp)

theorem missing_append_lt {env : Env} {path : List String} {t : String}
    (hk : t ∈ env.map Prod.fst) (hp : t ∉ path) :
    missing env (path ++ [t]) < missing env path :=
  filter_not_mem_append_lt _ path t hk hp

theorem missing_le (env : Env) (path : List String) : missing env path ≤ env.length := by
  unfold missing
  calc ((env.map Prod.fst).filter _).length ≤ (env.map Prod.fst).length :=
        List.length_filter_le _ _
    _ = env.length := List.length_map _ _

theorem fuel_step {fuel m m' M l l' : Nat} (h : m * (M + 1) + l < fuel + 1)
    (hm : m' < m) (hl : l' ≤ M) : m' * (M + 1) + l' < fuel := by
  obtain ⟨k, rfl⟩ : ∃ k, m = k + 1 := ⟨m - 1, by omega⟩
  have h1 : m' * (M + 1) ≤ k * (M + 1) := Nat.mul_le_mul_right _ (by omega)
  have h2 : (k + 1) * (M + 1) = k * (M + 1) + (M + 1) := by ring
  rw [h2] at h
  linarith

theorem fuel_rest {fuel m M l : Nat} (h : m * (M + 1) + (l + 1) < fuel + 1) :
    m * (M + 1) + l < fuel := by
  linarith

theorem composeFuel_sufficient (env : Env) (tmpl : Template) :
    missing env [tmpl.Name] * (maxIncs env tmpl + 1) + tmpl.Includes.length <
      composeFuel env tmpl := by
  have h1 : missing env [tmpl.Name] * (maxIncs env tmpl + 1) ≤
      env.length * (maxIncs env tmpl + 1) :=
    Nat.mul_le_mul_right _ (missing_le env _)
  have h2 : (env.length + 1) * (maxIncs env tmpl + 1) =
      env.length * (maxIncs env tmpl + 1) + (maxIncs env tmpl + 1) := by ring
  unfold composeFuel
  rw [h2]
  linarith

/-! ### Success and shape of acyclic composition -/

theorem composeIncludes_ok (env : Env) (root : Template) (rank : String → Nat)
    (hload : ∀ n, ReachT env root n → ∃ t, loadT env n = some t)
    (hrank : ∀ n t, ReachT env root n → loadT env n = some t →
      ∀ inc ∈ t.Includes, rank inc.Template < rank n) :
    ∀ fuel : Nat, ∀ (incs : List Include) (acc : Template) (path : List String) (B : Nat),
      missing env path * (maxIncs env root + 1) + incs.length < fuel →
      (∀ x ∈ path, B ≤ rank x) →
      (∀ inc ∈ incs, rank inc.Template < B ∧ ReachT env root inc.Template) →
      ∃ c, composeIncludes env fuel incs acc path = .ok c ∧
        c.Variables = dedupApp (fun v : Variable => v.Name) acc.Variables
          ((reachIncs env fuel incs path).flatMap (fun t => t.Variables)) ∧
        c.Files = dedupApp (fun f : File => f.Dest) acc.Files
          ((reachIncs env fuel incs path).flatMap (fun t => t.Files)) := by
  intro fuel
  induction fuel with
  | zero =>
    intro incs acc path B hb _ _
    exact absurd hb (Nat.not_lt_zero _)
  | succ fuel ih =>
    intro incs acc path B hb hpath hincs
    cases incs with
    | nil =>
      refine ⟨acc, rfl, ?_, ?_⟩ <;> simp [reachIncs, dedupApp]
    | cons inc rest =>
      obtain ⟨hrk, hreach⟩ := hincs inc (by simp)
      have hnotpath : inc.Template ∉ path := fun hmem =>
        absurd hrk (not_lt.mpr (hpath _ hmem))
      obtain ⟨t', hload'⟩ := hload inc.Template hreach
      have hkeys : inc.Template ∈ env.map Prod.fst := loadT_mem_keys hload'
      have hmlt : missing env (path ++ [inc.Template]) < missing env path :=
        missing_append_lt hkeys hnotpath
      have hsubb : missing env (path ++ [inc.Template]) * (maxIncs env root + 1) +
          t'.Includes.length < fuel :=
        fuel_step hb hmlt (maxIncs_env (loadT_mem_snd hload'))
      have hpath' : ∀ x ∈ path ++ [inc.Template], rank inc.Template ≤ rank x := by
        intro x hx
        rcases List.mem_append.mp hx with hx' | hx'
        · exact le_of_lt (lt_of_lt_of_le hrk (hpath x hx'))
        · simp only [List.mem_singleton] at hx'
          subst hx'
          exact le_refl _
      have hincs' : ∀ inc' ∈ t'.Includes,
          rank inc'.Template < rank inc.Template ∧ ReachT env root inc'.Template := by
        intro inc' hmem
        exact ⟨hrank inc.Template t' hreach hload' inc' hmem,
          ReachT.through hreach hload' (ReachT.direct hmem)⟩
      obtain ⟨r, hr, hrv, hrf⟩ :=
        ih t'.Includes (initCopy t') (path ++ [inc.Template]) (rank inc.Template)
          hsubb hpath' hincs'
      have hrestb : missing env path * (maxIncs env root + 1) + rest.length < fuel :=
        fuel_rest hb
      obtain ⟨c, hc, hcv, hcf⟩ :=
        ih rest (mergeTemplate acc r) path B hrestb hpath
          (fun i hi => hincs i (List.mem_cons_of_mem _ hi))
      have hflat : reachIncs env (fuel + 1) (inc :: rest) path =
          (t' :: reachIncs env fuel t'.Includes (path ++ [inc.Template])) ++
            reachIncs env fuel rest path := by
        simp only [reachIncs, if_neg hnotpath, hload']
      refine ⟨c, ?_, ?_, ?_⟩
      · simp only [composeIncludes, if_neg hnotpath, hload', hr, hc]
      · have h1 : (mergeTemplate acc r).Variables =
            dedupApp (fun v : Variable => v.Name) acc.Variables
              (t'.Variables ++ (reachIncs env fuel t'.Includes
                (path ++ [inc.Template])).flatMap (fun t => t.Variables)) := by
          show mergeVars acc.Variables r.Variables = _
          rw [mergeVars_eq_dedupApp, hrv]
          exact dedupApp_absorb _ _ _ _
        rw [hcv, h1, ← dedupApp_append, hflat]
        simp [List.append_assoc]
      · have h1 : (mergeTemplate acc r).Files =
            dedupApp (fun f : File => f.Dest) acc.Files
              (t'.Files ++ (reachIncs env fuel t'.Includes
                (path ++ [inc.Template])).flatMap (fun t => t.Files)) := by
          show mergeFiles acc.Files r.Files = _
          rw [mergeFiles_eq_dedupApp, hrf]
          exact dedupApp_absorb _ _ _ _
        rw [hcf, h1, ← dedupApp_append, hflat]
        simp [List.append_assoc]

/-- Every template enumerated by `reachIncs` was loaded for a reachable
identity. -/
theorem reachIncs_sound (env : Env) (root : Template) :
    ∀ fuel (incs : List Include) (path : List String) (t'' : Template),
      (∀ inc ∈ incs, ReachT env root inc.Template) →
      t'' ∈ reachIncs env fuel incs path →
      ∃ n, ReachT env root n ∧ loadT env n = some t'' := by
  intro fuel
  induction fuel with
  | zero => intro incs path t'' _ hmem; simp [reachIncs] at hmem
  | succ fuel ih =>
    intro incs path t'' hconds hmem
    cases incs with
    | nil => simp [reachIncs] at hmem
    | cons inc rest =>
      by_cases hp : inc.Template ∈ path
      · simp [reachIncs, hp] at hmem
      · rw [reachIncs, if_neg hp] at hmem
        cases hl : loadT env inc.Template with
        | none => rw [hl] at hmem; simp at hmem
        | some t' =>
          rw [hl] at hmem
          rcases List.mem_append.mp hmem with hm | hm
          · rcases List.mem_cons.mp hm with rfl | hm'
            · exact ⟨inc.Template, hconds inc (by simp), hl⟩
            · exact ih t'.Includes (path ++ [inc.Template]) t''
                (fun i hi => ReachT.through (hconds inc (by simp)) hl (ReachT.direct hi)) hm'
          · exact ih rest path t'' (fun i hi => hconds i (List.mem_cons_of_mem _ hi)) hm

/-- Loop lemma: the template loaded for any include of the list is
enumerated by `reachIncs` (given the rank/load invariants). -/
theorem reachIncs_mem_direct (env : Env) (root : Template) (rank : String → Nat)
    (hload : ∀ n, ReachT env root n → ∃ t, loadT env n = some t) :
    ∀ fuel (incs : List Include) (path : List String) (B : Nat),
      missing env path * (maxIncs env root + 1) + incs.length < fuel →
      (∀ x ∈ path, B ≤ rank x) →
      (∀ inc ∈ incs, rank inc.Template < B ∧ ReachT env root inc.Template) →
      ∀ inc ∈ incs, ∀ tm, loadT env inc.Template = some tm →
        tm ∈ reachIncs env fuel incs path := by
  intro fuel
  induction fuel with
  | zero => intro incs path B hb _ _; exact absurd hb (Nat.not_lt_zero _)
  | succ fuel ih =>
    intro incs path B hb hpath hconds inc hmem tm hl
    cases incs with
    | nil => simp at hmem
    | cons h rest =>
      obtain ⟨hrkh, hreachh⟩ := hconds h (by simp)
      have hnp : h.Template ∉ path := fun hm => absurd hrkh (not_lt.mpr (hpath _ hm))
      obtain ⟨th, hlth⟩ := hload h.Template hreachh
      rw [reachIncs, if_neg hnp, hlth]
      rcases List.mem_cons.mp hmem with rfl | hmem'
      · have : tm = th := by rw [hl] at hlth; injection hlth
        subst this
        exact List.mem_append_left _ (by simp)
      · refine List.mem_append_right _ ?_
        exact ih rest path B (fuel_rest hb) hpath
          (fun i hi => hconds i (List.mem_cons_of_mem _ hi)) inc hmem' tm hl

/-- Loop lemma: anything enumerated inside the subtree of an include of
the list is enumerated by `reachIncs` on the whole list. -/
theorem reachIncs_mem_step (env : Env) (root : Template) (rank : String → Nat)
    (hload : ∀ n, ReachT env root n → ∃ t, loadT env n = some t)
    (hrank : ∀ n t, ReachT env root n → loadT env n = some t →
      ∀ inc ∈ t.Includes, rank inc.Template < rank n) :
    ∀ fuel (incs : List Include) (path : List String) (B : Nat),
      missing env path * (maxIncs env root + 1) + incs.length < fuel →
      (∀ x ∈ path, B ≤ rank x) →
      (∀ inc ∈ incs, rank inc.Template < B ∧ ReachT env root inc.Template) →
      ∀ inc ∈ incs, ∀ tm, loadT env inc.Template = some tm →
      ∀ t'' : Template,
        (∀ f (p : List String) (B' : Nat),
          missing env p * (maxIncs env root + 1) + tm.Includes.length < f →
          (∀ x ∈ p, B' ≤ rank x) →
          (∀ i ∈ tm.Includes, rank i.Template < B' ∧ ReachT env root i.Template) →
          t'' ∈ reachIncs env f tm.Includes p) →
        t'' ∈ reachIncs env fuel incs path := by
  intro fuel
  induction fuel with
  | zero => intro incs path B hb _ _; exact absurd hb (Nat.not_lt_zero _)
  | succ fuel ih =>
    intro incs path B hb hpath hconds inc hmem tm hl t'' hsub
    cases incs with
    | nil => simp at hmem
    | cons h rest =>
      obtain ⟨hrkh, hreachh⟩ := hconds h (by simp)
      have hnp : h.Template ∉ path := fun hm => absurd hrkh (not_lt.mpr (hpath _ hm))
      obtain ⟨th, hlth⟩ := hload h.Template hreachh
      rw [reachIncs, if_neg hnp, hlth]
      rcases List.mem_cons.mp hmem with rfl | hmem'
      · have : tm = th := by rw [hl] at hlth; injection hlth
        subst this
        refine List.mem_append_left _ (List.mem_cons_of_mem _ ?_)
        apply hsub fuel (path ++ [inc.Template]) (rank inc.Template)
        · exact fuel_step hb (missing_append_lt (loadT_mem_keys hl) hnp)
            (maxIncs_env (loadT_mem_snd hl))
        · intro x hx
          rcases List.mem_append.mp hx with hx' | hx'
          · exact le_of_lt (lt_of_lt_of_le hrkh (hpath x hx'))
          · simp only [List.mem_singleton] at hx'
            subst hx'
            exact le_refl _
        · intro i hi
          exact ⟨hrank inc.Template tm hreachh hl i hi,
            ReachT.through hreachh hl (ReachT.direct hi)⟩
      · refine List.mem_append_right _ ?_
        exact ih rest path B (fuel_rest hb) hpath
          (fun i hi => hconds i (List.mem_cons_of_mem _ hi)) inc hmem' tm hl t'' hsub

/-- Completeness: the template loaded for any reachable identity is
enumerated by `reachIncs` (given the rank/load invariants). -/
theorem reachIncs_complete (env : Env) (root : Template) (rank : String → Nat)
    (hload : ∀ n, ReachT env root n → ∃ t, loadT env n = some t)
    (hrank : ∀ n t, ReachT env root n → loadT env n = some t →
      ∀ inc ∈ t.Includes, rank inc.Template < rank n) :
    ∀ (t : Template) (n : String), ReachT env t n →
    ∀ t'', loadT env n = some t'' →
    ∀ fuel (path : List String) (B : Nat),
      missing env path * (maxIncs env root + 1) + t.Includes.length < fuel →
      (∀ x ∈ path, B ≤ rank x) →
      (∀ inc ∈ t.Includes, rank inc.Template < B ∧ ReachT env root inc.Template) →
      t'' ∈ reachIncs env fuel t.Includes path := by
  intro t n h
  induction h with
  | direct hmem =>
    intro t'' hl fuel path B hb hpath hconds
    exact reachIncs_mem_direct env root rank hload fuel _ path B hb hpath hconds _ hmem t'' hl
  | step hmem hloadmid _ ih =>
    intro t'' hl fuel path B hb hpath hconds
    exact reachIncs_mem_step env root rank hload hrank fuel _ path B hb hpath hconds _ hmem
      _ hloadmid t'' (fun f p B' hb' hp' hc' => ih t'' hl f p B' hb' hp' hc')

/-- C1: for a template whose reachable include graph is acyclic
(witnessed by a topological rank decreasing along every include edge)
and whose reachable includes all load, `Compose` terminates with a
composed template; its `Variables` are the depth-first concatenation of
the variables of all reachable templates (root first, then includes
depth-first in declaration order) deduplicated first-declared-wins by
name, its `Files` likewise by destination path; hence its variable-name
set and file-destination set equal the unions over all reachable
templates.  (`reachList` is proved to enumerate exactly the reachable
templates.)  The per-template name/destination uniqueness required of
well-formed templates by the data model is assumed for the root. -/
theorem C1_compose_acyclic (env : Env) (tmpl : Template) (rank : String → Nat)
    (hload : ∀ n, ReachT env tmpl n → ∃ t, loadT env n = some t)
    (hrank : ∀ n t, ReachT env tmpl n → loadT env n = some t →
      ∀ inc ∈ t.Includes, rank inc.Template < rank n)
    (hroot : ∀ inc ∈ tmpl.Includes, rank inc.Template < rank tmpl.Name)
    (hndV : (tmpl.Variables.map (fun v => v.Name)).Nodup)
    (hndF : (tmpl.Files.map (fun f => f.Dest)).Nodup) :
    ∃ c, Compose env tmpl = .ok c ∧
      c.Variables = dedupApp (fun v : Variable => v.Name) []
        ((reachList env (composeFuel env tmpl) tmpl [tmpl.Name]).flatMap
          (fun t => t.Variables)) ∧
      c.Files = dedupApp (fun f : File => f.Dest) []
        ((reachList env (composeFuel env tmpl) tmpl [tmpl.Name]).flatMap
          (fun t => t.Files)) ∧
      (∀ t'' : Template,
        t'' ∈ reachList env (composeFuel env tmpl) tmpl [tmpl.Name] ↔
          (t'' = tmpl ∨ ∃ n, ReachT env tmpl n ∧ loadT env n = some t'')) ∧
      (∀ nm : String, (∃ v ∈ c.Variables, v.Name = nm) ↔
        ∃ t'' ∈ reachList env (composeFuel env tmpl) tmpl [tmpl.Name],
          ∃ v ∈ t''.Variables, v.Name = nm) ∧
      (∀ d : String, (∃ f ∈ c.Files, f.Dest = d) ↔
        ∃ t'' ∈ reachList env (composeFuel env tmpl) tmpl [tmpl.Name],
          ∃ f ∈ t''.Files, f.Dest = d) := by
  have hsuff := composeFuel_sufficient env tmpl
  have hconds : ∀ inc ∈ tmpl.Includes,
      rank inc.Template < rank tmpl.Name ∧ ReachT env tmpl inc.Template :=
    fun inc hi => ⟨hroot inc hi, ReachT.direct hi⟩
  have hpath : ∀ x ∈ ([tmpl.Name] : List String), rank tmpl.Name ≤ rank x := by
    intro x hx
    simp only [List.mem_singleton] at hx
    subst hx
    exact le_refl _
  obtain ⟨c, hc, hcv, hcf⟩ :=
    composeIncludes_ok env tmpl rank hload hrank (composeFuel env tmpl)
      tmpl.Includes (initCopy tmpl) [tmpl.Name] (rank tmpl.Name) hsuff hpath hconds
  have hv0 : dedupApp (fun v : Variable => v.Name) [] tmpl.Variables = tmpl.Variables := by
    have := dedupApp_of_nodup (fun v : Variable => v.Name) tmpl.Variables [] hndV
      (by rintro x _ ⟨y, hy, _⟩; simp at hy)
    simpa using this
  have hf0 : dedupApp (fun f : File => f.Dest) [] tmpl.Files = tmpl.Files := by
    have := dedupApp_of_nodup (fun f : File => f.Dest) tmpl.Files [] hndF
      (by rintro x _ ⟨y, hy, _⟩; simp at hy)
    simpa using this
  have hcv' : c.Variables = dedupApp (fun v : Variable => v.Name) []
      ((reachList env (composeFuel env tmpl) tmpl [tmpl.Name]).flatMap
        (fun t => t.Variables)) := by
    rw [hcv]
    show dedupApp _ tmpl.Variables _ = _
    rw [reachList, List.flatMap_cons, dedupApp_append, hv0]
  have hcf' : c.Files = dedupApp (fun f : File => f.Dest) []
      ((reachList env (composeFuel env tmpl) tmpl [tmpl.Name]).flatMap
        (fun t => t.Files)) := by
    rw [hcf]
    show dedupApp _ tmpl.Files _ = _
    rw [reachList, List.flatMap_cons, dedupApp_append, hf0]
  have hiff : ∀ t'' : Template,
      t'' ∈ reachList env (composeFuel env tmpl) tmpl [tmpl.Name] ↔
        (t'' = tmpl ∨ ∃ n, ReachT env tmpl n ∧ loadT env n = some t'') := by
    intro t''
    constructor
    · intro hmem
      rcases List.mem_cons.mp hmem with rfl | hmem'
      · exact Or.inl rfl
      · exact Or.inr (reachIncs_sound env tmpl _ _ _ t''
          (fun i hi => ReachT.direct hi) hmem')
    · rintro (rfl | ⟨n, hreach, hl⟩)
      · exact List.mem_cons_self _ _
      · exact List.mem_cons_of_mem _
          (reachIncs_complete env tmpl rank hload hrank tmpl n hreach t'' hl
            (composeFuel env tmpl) [tmpl.Name] (rank tmpl.Name) hsuff hpath hconds)
  refine ⟨c, hc, hcv', hcf', hiff, ?_, ?_⟩
  · intro nm
    rw [hcv', dedupApp_exists_key]
    simp only [List.not_mem_nil, false_and, exists_false, false_or, List.mem_flatMap]
    constructor
    · rintro ⟨v, ⟨t'', ht, hv⟩, hn⟩
      exact ⟨t'', ht, v, hv, hn⟩
    · rintro ⟨t'', ht, v, hv, hn⟩
      exact ⟨v, ⟨t'', ht, hv⟩, hn⟩
  · intro d
    rw [hcf', dedupApp_exists_key]
    simp only [List.not_mem_nil, false_and, exists_false, false_or, List.mem_flatMap]
    constructor
    · rintro ⟨f, ⟨t'', ht, hf⟩, hn⟩
      exact ⟨t'', ht, f, hf, hn⟩
    · rintro ⟨t'', ht, f, hf, hn⟩
      exact ⟨f, ⟨t'', ht, hf⟩, hn⟩

/-! ### Cycle detection -/

theorem length_le_dedup_of_nodup_subset {l s : List String}
    (hnd : l.Nodup) (hsub : ∀ x ∈ l, x ∈ s) : l.length ≤ s.dedup.length := by
  have h1 : l.length = l.toFinset.card := (List.toFinset_card_of_nodup hnd).symm
  have h2 : l.toFinset ⊆ s.toFinset := fun x hx =>
    List.mem_toFinset.mpr (hsub x (List.mem_toFinset.mp hx))
  have h3 : s.toFinset.card = s.dedup.length := List.card_toFinset s
  calc l.length = l.toFinset.card := h1
    _ ≤ s.toFinset.card := Finset.card_le_card h2
    _ = s.dedup.length := h3

theorem nodup_append_singleton {l : List String} {x : String}
    (hnd : l.Nodup) (hx : x ∉ l) : (l ++ [x]).Nodup := by
  rw [List.nodup_append]
  refine ⟨hnd, List.nodup_singleton x, ?_⟩
  intro a ha hb
  simp only [List.mem_singleton] at hb
  subst hb
  exact hx ha

/-- Inversion: if the include loop succeeded, every include of the list
passed the cycle check, loaded, and composed successfully. -/
theorem composeIncludes_ok_inv (env : Env) :
    ∀ fuel (incs : List Include) (acc : Template) (path : List String) (c : Template),
      composeIncludes env fuel incs acc path = .ok c →
      ∀ inc ∈ incs, inc.Template ∉ path ∧
        ∃ t', loadT env inc.Template = some t' ∧
          ∃ f' r, composeWithPath env f' t' (path ++ [inc.Template]) = .ok r := by
  intro fuel
  induction fuel with
  | zero =>
    intro incs acc path c heq
    simp [composeIncludes] at heq
  | succ fuel ih =>
    intro incs acc path c heq inc hmem
    cases incs with
    | nil => simp at hmem
    | cons h rest =>
      by_cases hp : h.Template ∈ path
      · rw [composeIncludes, if_pos hp] at heq
        simp at heq
      · rw [composeIncludes, if_neg hp] at heq
        split at heq
        · simp at heq
        · next t' hl =>
          split at heq
          · simp at heq
          · next resolved hsub =>
            rcases List.mem_cons.mp hmem with rfl | hmem'
            · exact ⟨hp, t', hl, fuel, resolved, hsub⟩
            · exact ih rest (mergeTemplate acc resolved) path c heq inc hmem'

/-- If composition succeeded, every reachable identity was absent from
the path and itself composed successfully on an extended path. -/
theorem composeWithPath_ok_reach (env : Env) :
    ∀ (t : Template) (n : String), ReachT env t n →
    ∀ fuel (path : List String) (c : Template),
      composeWithPath env fuel t path = .ok c →
      n ∉ path ∧ ∃ t' f' p' c', loadT env n = some t' ∧
        composeWithPath env f' t' (p' ++ [n]) = .ok c' := by
  intro t n h
  induction h with
  | direct hmem =>
    intro fuel path c hok
    obtain ⟨hnp, t', hl, f', r, hr⟩ := composeIncludes_ok_inv env fuel _ _ path c hok _ hmem
    exact ⟨hnp, t', f', path, r, hl, hr⟩
  | @step t₀ inc tmid n₀ hmem hloadmid _ ih =>
    intro fuel path c hok
    obtain ⟨_, tmid', hl', f', r, hr⟩ := composeIncludes_ok_inv env fuel _ _ path c hok _ hmem
    have heqm : tmid' = tmid := by
      rw [hl'] at hloadmid
      injection hloadmid
    subst heqm
    obtain ⟨hnp', hrest⟩ := ih f' (path ++ [inc.Template]) r hr
    exact ⟨fun hn => hnp' (List.mem_append_left _ hn), hrest⟩

/-- With enough fuel and all reachable identities loadable, the only
error the include loop can produce is a circular-dependency report whose
path is bounded by the number of distinct template identities plus
one. -/
theorem composeIncludes_error_circular (env : Env) (root : Template)
    (hload : ∀ n, ReachT env root n → ∃ t, loadT env n = some t) :
    ∀ fuel (incs : List Include) (acc : Template) (path : List String) (e : ComposeError),
      missing env path * (maxIncs env root + 1) + incs.length < fuel →
      path.Nodup →
      (∀ x ∈ path, x ∈ root.Name :: env.map Prod.fst) →
      (∀ inc ∈ incs, ReachT env root inc.Template) →
      composeIncludes env fuel incs acc path = .error e →
      ∃ p, e = .circular p ∧
        p.length ≤ (root.Name :: env.map Prod.fst).dedup.length + 1 := by
  intro fuel
  induction fuel with
  | zero =>
    intro incs acc path e hb _ _ _ _
    exact absurd hb (Nat.not_lt_zero _)
  | succ fuel ih =>
    intro incs acc path e hb hnd hsubp hconds heq
    cases incs with
    | nil => simp [composeIncludes] at heq
    | cons inc rest =>
      by_cases hp : inc.Template ∈ path
      · rw [composeIncludes, if_pos hp] at heq
        simp only [Except.error.injEq] at heq
        refine ⟨path ++ [inc.Template], heq.symm, ?_⟩
        have h1 : path.length ≤ (root.Name :: env.map Prod.fst).dedup.length :=
          length_le_dedup_of_nodup_subset hnd hsubp
        simp only [List.length_append, List.length_singleton]
        omega
      · rw [composeIncludes, if_neg hp] at heq
        obtain ⟨t₀, hl₀⟩ := hload inc.Template (hconds inc (by simp))
        split at heq
        · next hl => rw [hl] at hl₀; simp at hl₀
        · next t' hl =>
          split at heq
          · next e' hsub =>
            simp only [Except.error.injEq] at heq
            subst heq
            refine ih t'.Includes (initCopy t') (path ++ [inc.Template]) _ ?_ ?_ ?_ ?_ hsub
            · exact fuel_step hb (missing_append_lt (loadT_mem_keys hl) hp)
                (maxIncs_env (loadT_mem_snd hl))
            · exact nodup_append_singleton hnd hp
            · intro x hx
              rcases List.mem_append.mp hx with hx' | hx'
              · exact hsubp x hx'
              · simp only [List.mem_singleton] at hx'
                subst hx'
                exact List.mem_cons_of_mem _ (loadT_mem_keys hl)
            · intro i hi
              exact ReachT.through (hconds inc (by simp)) hl (ReachT.direct hi)
          · next resolved hsub =>
            exact ih rest (mergeTemplate acc resolved) path e (fuel_rest hb) hnd hsubp
              (fun i hi => hconds i (List.mem_cons_of_mem _ hi)) heq

/-- Inversion for the `getAllIncludesWithPath` loop: success means every
include of the list passed the cycle check, loaded, and was walked
successfully. -/
theorem collectIncludes_ok_inv (env : Env) :
    ∀ fuel (incs acc : List Include) (path : List String) (res : List Include),
      collectIncludes env fuel incs acc path = .ok res →
      ∀ inc ∈ incs, inc.Template ∉ path ∧
        ∃ t', loadT env inc.Template = some t' ∧
          ∃ f' r, getAllIncludesWithPath env f' t' (path ++ [inc.Template]) = .ok r := by
  intro fuel
  induction fuel with
  | zero =>
    intro incs acc path res heq
    simp [collectIncludes] at heq
  | succ fuel ih =>
    intro incs acc path res heq inc hmem
    cases incs with
    | nil => simp at hmem
    | cons h rest =>
      by_cases hp : h.Template ∈ path
      · rw [collectIncludes, if_pos hp] at heq
        simp at heq
      · rw [collectIncludes, if_neg hp] at heq
        split at heq
        · simp at heq
        · next t' hl =>
          split at heq
          · simp at heq
          · next tincs hsub =>
            rcases List.mem_cons.mp hmem with rfl | hmem'
            · exact ⟨hp, t', hl, fuel, tincs, hsub⟩
            · exact ih rest _ path res heq inc hmem'

/-- If the include walk succeeded, every reachable identity was absent
from the path and was itself walked successfully on an extended path. -/
theorem getAllIncludes_ok_reach (env : Env) :
    ∀ (t : Template) (n : String), ReachT env t n →
    ∀ fuel (path : List String) (res : List Include),
      getAllIncludesWithPath env fuel t path = .ok res →
      n ∉ path ∧ ∃ t' f' p' r, loadT env n = some t' ∧
        getAllIncludesWithPath env f' t' (p' ++ [n]) = .ok r := by
  intro t n h
  induction h with
  | direct hmem =>
    intro fuel path res hok
    obtain ⟨hnp, t', hl, f', r, hr⟩ := collectIncludes_ok_inv env fuel _ _ path res hok _ hmem
    exact ⟨hnp, t', f', path, r, hl, hr⟩
  | @step t₀ inc tmid n₀ hmem hloadmid _ ih =>
    intro fuel path res hok
    obtain ⟨_, tmid', hl', f', r, hr⟩ := collectIncludes_ok_inv env fuel _ _ path res hok _ hmem
    have heqm : tmid' = tmid := by
      rw [hl'] at hloadmid
      injection hloadmid
    subst heqm
    obtain ⟨hnp', hrest⟩ := ih f' (path ++ [inc.Template]) r hr
    exact ⟨fun hn => hnp' (List.mem_append_left _ hn), hrest⟩

/-- As for composition: with enough fuel and all reachable identities
loadable, the only error the include walk can produce is a bounded
circular-dependency report. -/
theorem collectIncludes_error_circular (env : Env) (root : Template)
    (hload : ∀ n, ReachT env root n → ∃ t, loadT env n = some t) :
    ∀ fuel (incs acc : List Include) (path : List String) (e : ComposeError),
      missing env path * (maxIncs env root + 1) + incs.length < fuel →
      path.Nodup →
      (∀ x ∈ path, x ∈ root.Name :: env.map Prod.fst) →
      (∀ inc ∈ incs, ReachT env root inc.Template) →
      collectIncludes env fuel incs acc path = .error e →
      ∃ p, e = .circular p ∧
        p.length ≤ (root.Name :: env.map Prod.fst).dedup.length + 1 := by
  intro fuel
  induction fuel with
  | zero =>
    intro incs acc path e hb _ _ _ _
    exact absurd hb (Nat.not_lt_zero _)
  | succ fuel ih =>
    intro incs acc path e hb hnd hsubp hconds heq
    cases incs with
    | nil => simp [collectIncludes] at heq
    | cons inc rest =>
      by_cases hp : inc.Template ∈ path
      · rw [collectIncludes, if_pos hp] at heq
        simp only [Except.error.injEq] at heq
        refine ⟨path ++ [inc.Template], heq.symm, ?_⟩
        have h1 : path.length ≤ (root.Name :: env.map Prod.fst).dedup.length :=
          length_le_dedup_of_nodup_subset hnd hsubp
        simp only [List.length_append, List.length_singleton]
        omega
      · rw [collectIncludes, if_neg hp] at heq
        obtain ⟨t₀, hl₀⟩ := hload inc.Template (hconds inc (by simp))
        split at heq
        · next hl => rw [hl] at hl₀; simp at hl₀
        · next t' hl =>
          split at heq
          · next e' hsub =>
            simp only [Except.error.injEq] at heq
            subst heq
            refine ih t'.Includes [] (path ++ [inc.Template]) _ ?_ ?_ ?_ ?_ hsub
            · exact fuel_step hb (missing_append_lt (loadT_mem_keys hl) hp)
                (maxIncs_env (loadT_mem_snd hl))
            · exact nodup_append_singleton hnd hp
            · intro x hx
              rcases List.mem_append.mp hx with hx' | hx'
              · exact hsubp x hx'
              · simp only [List.mem_singleton] at hx'
                subst hx'
                exact List.mem_cons_of_mem _ (loadT_mem_keys hl)
            · intro i hi
              exact ReachT.through (hconds inc (by simp)) hl (ReachT.direct hi)
          · next tincs hsub =>
            exact ih rest _ path e (fuel_rest hb) hnd hsubp
              (fun i hi => hconds i (List.mem_cons_of_mem _ hi)) heq

/-- C2: when the include graph reachable from the root contains a cycle
(an identity reachable from itself, or a chain reaching the root's own
identity) and every reachable identity loads, both `Compose` and
`GetAllIncludes` terminate with a circular-dependency error whose
reported path has length at most the number of distinct template
identities (the root's plus the environment's) plus one. -/
theorem C2_cycle_detection (env : Env) (tmpl : Template)
    (hload : ∀ n, ReachT env tmpl n → ∃ t, loadT env n = some t)
    (hcycle : ReachT env tmpl tmpl.Name ∨
      ∃ n t', ReachT env tmpl n ∧ loadT env n = some t' ∧ ReachT env t' n) :
    (∃ p, Compose env tmpl = .error (.circular p) ∧
      p.length ≤ (tmpl.Name :: env.map Prod.fst).dedup.length + 1) ∧
    (∃ p, GetAllIncludes env tmpl = .error (.circular p) ∧
      p.length ≤ (tmpl.Name :: env.map Prod.fst).dedup.length + 1) := by
  constructor
  · cases hres : Compose env tmpl with
    | ok c =>
      exfalso
      rcases hcycle with hself | ⟨n, t', hreach, hl, hself⟩
      · obtain ⟨hnp, _⟩ := composeWithPath_ok_reach env tmpl tmpl.Name hself _ _ _ hres
        exact hnp (by simp)
      · obtain ⟨_, t'', f', p', c', hl'', hok'⟩ :=
          composeWithPath_ok_reach env tmpl n hreach _ _ _ hres
        have ht : t'' = t' := by rw [hl''] at hl; injection hl
        subst ht
        obtain ⟨hnp', _⟩ := composeWithPath_ok_reach env t'' n hself f' _ c' hok'
        exact hnp' (by simp)
    | error e =>
      obtain ⟨p, hpe, hlen⟩ :=
        composeIncludes_error_circular env tmpl hload (composeFuel env tmpl)
          tmpl.Includes (initCopy tmpl) [tmpl.Name] e (composeFuel_sufficient env tmpl)
          (List.nodup_singleton _)
          (by intro x hx; simp only [List.mem_singleton] at hx; subst hx; simp)
          (fun i hi => ReachT.direct hi) hres
      subst hpe
      exact ⟨p, rfl, hlen⟩
  · cases hres : GetAllIncludes env tmpl with
    | ok res =>
      exfalso
      rcases hcycle with hself | ⟨n, t', hreach, hl, hself⟩
      · obtain ⟨hnp, _⟩ := getAllIncludes_ok_reach env tmpl tmpl.Name hself _ _ _ hres
        exact hnp (by simp)
      · obtain ⟨_, t'', f', p', r', hl'', hok'⟩ :=
          getAllIncludes_ok_reach env tmpl n hreach _ _ _ hres
        have ht : t'' = t' := by rw [hl''] at hl; injection hl
        subst ht
        obtain ⟨hnp', _⟩ := getAllIncludes_ok_reach env t'' n hself f' _ r' hok'
        exact hnp' (by simp)
    | error e =>
      obtain ⟨p, hpe, hlen⟩ :=
        collectIncludes_error_circular env tmpl hload (composeFuel env tmpl)
          tmpl.Includes [] [tmpl.Name] e (composeFuel_sufficient env tmpl)
          (List.nodup_singleton _)
          (by intro x hx; simp only [List.mem_singleton] at hx; subst hx; simp)
          (fun i hi => ReachT.direct hi) hres
      subst hpe
      exact ⟨p, rfl, hlen⟩

/-! ### Frame: composition never touches the identity fields -/

theorem composeIncludes_fields (env : Env) :
    ∀ fuel (incs : List Include) (acc : Template) (path : List String) (c : Template),
      composeIncludes env fuel incs acc path = .ok c →
      c.Name = acc.Name ∧ c.Type' = acc.Type' ∧ c.Version = acc.Version ∧
        c.Description = acc.Description ∧ c.Includes = acc.Includes := by
  intro fuel
  induction fuel with
  | zero =>
    intro incs acc path c heq
    simp [composeIncludes] at heq
  | succ fuel ih =>
    intro incs acc path c heq
    cases incs with
    | nil =>
      simp only [composeIncludes, Except.ok.injEq] at heq
      subst heq
      exact ⟨rfl, rfl, rfl, rfl, rfl⟩
    | cons h rest =>
      by_cases hp : h.Template ∈ path
      · rw [composeIncludes, if_pos hp] at heq
        simp at heq
      · rw [composeIncludes, if_neg hp] at heq
        split at heq
        · simp at heq
        · next t' hl =>
          split at heq
          · simp at heq
          · next resolved hsub =>
            exact ih rest (mergeTemplate acc resolved) path c heq

/-- C9: merging an included template never changes the accumulator's
`Name`, `Type`, `Version`, `Description` or `Includes`; consequently any
successful `Compose` — and hence any successful
`ComposeWithEnabledIncludes` — returns a template with an empty
`Includes` sequence whose identity fields equal the root input's. -/
theorem C9_composition_frame :
    (∀ dst src : Template,
      (mergeTemplate dst src).Name = dst.Name ∧
      (mergeTemplate dst src).Type' = dst.Type' ∧
      (mergeTemplate dst src).Version = dst.Version ∧
      (mergeTemplate dst src).Description = dst.Description ∧
      (mergeTemplate dst src).Includes = dst.Includes) ∧
    (∀ (env : Env) (tmpl c : Template), Compose env tmpl = .ok c →
      c.Includes = ([] : List Include) ∧ c.Name = tmpl.Name ∧ c.Type' = tmpl.Type' ∧
        c.Version = tmpl.Version ∧ c.Description = tmpl.Description) ∧
    (∀ (env : Env) (tmpl : Template) (enabledIncludes : List (String × Bool)) (c : Template),
      ComposeWithEnabledIncludes env tmpl enabledIncludes = .ok c →
      c.Includes = ([] : List Include) ∧ c.Name = tmpl.Name ∧ c.Type' = tmpl.Type' ∧
        c.Version = tmpl.Version ∧ c.Description = tmpl.Description) := by
  refine ⟨fun dst src => ⟨rfl, rfl, rfl, rfl, rfl⟩, ?_, ?_⟩
  · intro env tmpl c heq
    obtain ⟨h1, h2, h3, h4, h5⟩ := composeIncludes_fields env _ _ _ _ _ heq
    exact ⟨h5, h1, h2, h3, h4⟩
  · intro env tmpl enabledIncludes c heq
    obtain ⟨h1, h2, h3, h4, h5⟩ := composeIncludes_fields env _ _ _ _ _ heq
    exact ⟨h5, h1, h2, h3, h4⟩

/-- C5: `ComposeWithEnabledIncludes` retains a direct include exactly
when the enabled map explicitly maps its identity to true, or the map
has no entry and the include's `EnabledByDefault` flag is set; the
filter is applied only to the root's direct includes (the filtered
template is handed to plain `Compose`, which consults no map, so every
include of an accepted include is composed unconditionally — in the
concrete instance below, `tracing`, a default-disabled include of
`logging` absent from the map, is still composed).  With direct includes
`logging` (default true) and `metrics` (default false) and the map
`{metrics ↦ true}`, the result carries the variables and dependencies of
both `logging` and `metrics`. -/
theorem C5_enabled_include_filter :
    (∀ (enabledIncludes : List (String × Bool)) (tmpl : Template) (inc : Include),
      inc ∈ tmpl.Includes.filter (enabledKeep enabledIncludes) ↔
        inc ∈ tmpl.Includes ∧
          ((enabledIncludes.find? (fun p => p.fst == inc.Template)).map Prod.snd = some true ∨
            (enabledIncludes.find? (fun p => p.fst == inc.Template) = none ∧
              inc.EnabledByDefault = true))) ∧
    (∀ (env : Env) (tmpl : Template) (enabledIncludes : List (String × Bool)),
      ComposeWithEnabledIncludes env tmpl enabledIncludes =
        Compose env { tmpl with Includes := tmpl.Includes.filter (enabledKeep enabledIncludes) }) ∧
    (ComposeWithEnabledIncludes env5 base5 [("metrics", true)]).map
        (fun c => (c.Variables.map (fun v => v.Name), c.Dependencies)) =
      .ok (["log_level", "trace_id", "metrics_port"], ["zap@1.26.0", "prometheus"]) := by
  refine ⟨?_, fun _ _ _ => rfl, by rfl⟩
  intro enabledIncludes tmpl inc
  rw [List.mem_filter]
  constructor
  · rintro ⟨hmem, hkeep⟩
    refine ⟨hmem, ?_⟩
    unfold enabledKeep at hkeep
    cases hf : enabledIncludes.find? (fun p => p.fst == inc.Template) with
    | none =>
      rw [hf] at hkeep
      exact Or.inr ⟨rfl, hkeep⟩
    | some q =>
      rw [hf] at hkeep
      have hq : q.snd = true := hkeep
      exact Or.inl (by simp [hq])
  · rintro ⟨hmem, hcond⟩
    refine ⟨hmem, ?_⟩
    unfold enabledKeep
    rcases hcond with hsome | ⟨hnone, hdef⟩
    · cases hf : enabledIncludes.find? (fun p => p.fst == inc.Template) with
      | none => rw [hf] at hsome; simp at hsome
      | some q =>
        rw [hf] at hsome
        have hq : q.snd = true := by simpa using hsome
        exact hq
    · rw [hnone]
      exact hdef

/-! ### The dependency map: parsing and key uniqueness -/

theorem parseDepChars_no_at :
    ∀ (cs pre post : List Char), parseDepChars cs = some (pre, post) → '@' ∉ pre := by
  intro cs
  induction cs with
  | nil => intro pre post h; simp [parseDepChars] at h
  | cons c cs ih =>
    intro pre post h
    rw [parseDepChars] at h
    by_cases hc : c = '@'
    · rw [if_pos hc] at h
      simp only [Option.some.injEq, Prod.mk.injEq] at h
      rw [← h.1]
      simp
    · rw [if_neg hc] at h
      cases hrec : parseDepChars cs with
      | none => rw [hrec] at h; simp at h
      | some q =>
        rw [hrec] at h
        simp only [Option.some.injEq, Prod.mk.injEq] at h
        rw [← h.1]
        intro hmem
        rcases List.mem_cons.mp hmem with heq | hmem'
        · exact hc heq.symm
        · exact ih q.fst q.snd (by rw [hrec]) hmem'

theorem parseDepChars_eq_none :
    ∀ (cs : List Char), '@' ∉ cs → parseDepChars cs = none := by
  intro cs
  induction cs with
  | nil => intro _; rfl
  | cons c cs ih =>
    intro hno
    rw [parseDepChars]
    have hc : ¬c = '@' := fun h => hno (h ▸ List.mem_cons_self c cs)
    rw [if_neg hc, ih (fun hm => hno (List.mem_cons_of_mem _ hm))]

theorem parseDepChars_none_no_at :
    ∀ (cs : List Char), parseDepChars cs = none → '@' ∉ cs := by
  intro cs
  induction cs with
  | nil => intro _; simp
  | cons c cs ih =>
    intro h
    rw [parseDepChars] at h
    by_cases hc : c = '@'
    · rw [if_pos hc] at h; simp at h
    · rw [if_neg hc] at h
      cases hrec : parseDepChars cs with
      | none =>
        intro hmem
        rcases List.mem_cons.mp hmem with heq | hmem'
        · exact hc heq.symm
        · exact ih hrec hmem'
      | some q => rw [hrec] at h; simp at h

theorem parseDepChars_split :
    ∀ (pre : List Char), '@' ∉ pre → ∀ post,
      parseDepChars (pre ++ '@' :: post) = some (pre, post) := by
  intro pre
  induction pre with
  | nil => intro _ post; simp [parseDepChars]
  | cons c pre ih =>
    intro hno post
    have hc : ¬c = '@' := fun h => hno (h ▸ List.mem_cons_self c pre)
    rw [List.cons_append, parseDepChars, if_neg hc,
      ih (fun hm => hno (List.mem_cons_of_mem _ hm)) post]

theorem parseDependency_fst_no_at (dep : String) :
    '@' ∉ (parseDependency dep).fst.toList := by
  unfold parseDependency
  cases h : parseDepChars dep.toList with
  | none => exact parseDepChars_none_no_at _ h
  | some q => exact parseDepChars_no_at dep.toList q.fst q.snd (by rw [h])

theorem strToList_append (a b : String) : (a ++ b).toList = a.toList ++ b.toList :=
  String.data_append a b

theorem parseDependency_renderDep {q : String × String} (h : '@' ∉ q.fst.toList) :
    (parseDependency (renderDep q)).fst = q.fst := by
  unfold renderDep
  by_cases hv : (q.snd == "") = true
  · rw [if_pos hv]
    unfold parseDependency
    rw [parseDepChars_eq_none _ h]
  · rw [if_neg hv]
    unfold parseDependency
    have htl : (q.fst ++ "@" ++ q.snd).toList = q.fst.toList ++ '@' :: q.snd.toList := by
      rw [strToList_append, strToList_append, List.append_assoc]
      rfl
    rw [htl, parseDepChars_split _ h]
    rfl

theorem depKeys_map_update (m : List (String × String)) (pkg ver : String) :
    (m.map (fun p => if p.fst == pkg then (pkg, ver) else p)).map Prod.fst =
      m.map Prod.fst := by
  induction m with
  | nil => rfl
  | cons q m ih =>
    simp only [List.map_cons]
    by_cases hq : (q.fst == pkg) = true
    · rw [if_pos hq, ih]
      simp [beq_iff_eq.mp hq]
    · rw [if_neg hq, ih]

theorem mem_setDep {m : List (String × String)} {pkg ver : String} {q : String × String}
    (h : q ∈ setDep m pkg ver) : q ∈ m ∨ q = (pkg, ver) := by
  unfold setDep at h
  by_cases hc : (m.any fun p => p.fst == pkg) = true
  · rw [if_pos hc] at h
    obtain ⟨p, hp, hq⟩ := List.mem_map.mp h
    by_cases hpk : (p.fst == pkg) = true
    · rw [if_pos hpk] at hq
      exact Or.inr hq.symm
    · rw [if_neg hpk] at hq
      exact Or.inl (hq ▸ hp)
  · rw [if_neg hc] at h
    rcases List.mem_append.mp h with h' | h'
    · exact Or.inl h'
    · simp only [List.mem_singleton] at h'
      exact Or.inr h'

theorem mem_setDepIfUnversioned {m : List (String × String)} {pkg ver : String}
    {q : String × String} (h : q ∈ setDepIfUnversioned m pkg ver) :
    q ∈ m ∨ q = (pkg, ver) := by
  unfold setDepIfUnversioned at h
  split at h
  · rcases List.mem_append.mp h with h' | h'
    · exact Or.inl h'
    · simp only [List.mem_singleton] at h'
      exact Or.inr h'
  · split at h
    · obtain ⟨p, hp, hq⟩ := List.mem_map.mp h
      by_cases hpk : (p.fst == pkg) = true
      · rw [if_pos hpk] at hq
        exact Or.inr hq.symm
      · rw [if_neg hpk] at hq
        exact Or.inl (hq ▸ hp)
    · exact Or.inl h

theorem any_eq_false_not_mem_keys {m : List (String × String)} {pkg : String}
    (hc : (m.any fun p => p.fst == pkg) = false) : pkg ∉ depKeys m := by
  intro hmem
  obtain ⟨p, hp, hfst⟩ := List.mem_map.mp hmem
  have := List.any_eq_false.mp hc p hp
  rw [hfst] at this
  simp at this

theorem DepInv_setDep {m : List (String × String)} {pkg ver : String}
    (h : DepInv m) (hpkg : '@' ∉ pkg.toList) : DepInv (setDep m pkg ver) := by
  constructor
  · unfold setDep depKeys
    by_cases hc : (m.any fun p => p.fst == pkg) = true
    · rw [if_pos hc, depKeys_map_update]
      exact h.1
    · rw [if_neg hc]
      rw [List.map_append]
      exact nodup_append_singleton h.1
        (any_eq_false_not_mem_keys (Bool.not_eq_true _ ▸ eq_false_of_ne_true hc))
  · intro q hq
    rcases mem_setDep hq with h' | h'
    · exact h.2 q h'
    · rw [h']
      exact hpkg

theorem find?_eq_none_not_mem_keys {m : List (String × String)} {pkg : String}
    (hf : m.find? (fun p => p.fst == pkg) = none) : pkg ∉ depKeys m := by
  intro hmem
  obtain ⟨p, hp, hfst⟩ := List.mem_map.mp hmem
  have := List.find?_eq_none.mp hf p hp
  rw [hfst] at this
  simp at this

theorem DepInv_setDepIfUnversioned {m : List (String × String)} {pkg ver : String}
    (h : DepInv m) (hpkg : '@' ∉ pkg.toList) : DepInv (setDepIfUnversioned m pkg ver) := by
  constructor
  · unfold setDepIfUnversioned depKeys
    split
    · next hf =>
      rw [List.map_append]
      exact nodup_append_singleton h.1 (find?_eq_none_not_mem_keys hf)
    · next p₀ hf =>
      split
      · rw [depKeys_map_update]
        exact h.1
      · exact h.1
  · intro q hq
    rcases mem_setDepIfUnversioned hq with h' | h'
    · exact h.2 q h'
    · rw [h']
      exact hpkg

theorem DepInv_depMapMerge (dst src : List String) : DepInv (depMapMerge dst src) := by
  unfold depMapMerge
  have hbase : DepInv ([] : List (String × String)) := ⟨List.nodup_nil, by simp⟩
  have hdst : ∀ (l : List String) (m : List (String × String)), DepInv m →
      DepInv (l.foldl
        (fun m dep => setDep m (parseDependency dep).fst (parseDependency dep).snd) m) := by
    intro l
    induction l with
    | nil => intro m hm; exact hm
    | cons d l ih =>
      intro m hm
      exact ih _ (DepInv_setDep hm (parseDependency_fst_no_at d))
  have hsrc : ∀ (l : List String) (m : List (String × String)), DepInv m →
      DepInv (l.foldl
        (fun m dep =>
          setDepIfUnversioned m (parseDependency dep).fst (parseDependency dep).snd) m) := by
    intro l
    induction l with
    | nil => intro m hm; exact hm
    | cons d l ih =>
      intro m hm
      exact ih _ (DepInv_setDepIfUnversioned hm (parseDependency_fst_no_at d))
  exact hsrc src _ (hdst dst _ hbase)

theorem filter_key_length_le_one {m : List (String × String)} (h : (depKeys m).Nodup)
    (k : String) : (m.filter (fun q => q.fst == k)).length ≤ 1 := by
  induction m with
  | nil => simp
  | cons q m ih =>
    have hnd := List.nodup_cons.mp h
    rw [List.filter_cons]
    by_cases hq : (q.fst == k) = true
    · rw [hq]
      simp only [if_true]
      have hrest : m.filter (fun q => q.fst == k) = [] := by
        rw [List.filter_eq_nil_iff]
        intro p hp
        intro hpk
        apply hnd.1
        have : q.fst = k := beq_iff_eq.mp hq
        have hpfst : p.fst = k := beq_iff_eq.mp hpk
        rw [this, ← hpfst]
        exact List.mem_map_of_mem Prod.fst hp
      simp [hrest]
    · rw [if_neg (by simpa using hq)]
      exact ih hnd.2

/-- C10: a dependency string beginning with `@` (such as a scoped
package `@scope/pkg@1.0.0`) is parsed as the empty package name with
everything after the first `@` as the version; consequently all such
dependencies share the map key `""` during merging, and at most one
entry whose package part is empty survives in any merged list. -/
theorem C10_scoped_dependency_collapse :
    (∀ s : String, parseDependency ("@" ++ s) = ("", s)) ∧
    (∀ dst src : List String,
      ((mergeDependencies dst src).filter
        (fun d => (parseDependency d).fst == "")).length ≤ 1) := by
  constructor
  · intro s
    unfold parseDependency
    have h1 : ("@" ++ s).toList = '@' :: s.toList := by
      rw [strToList_append]
      rfl
    rw [h1]
    rw [show parseDepChars ('@' :: s.toList) = some ([], s.toList) by
      rw [parseDepChars]; simp]
    rfl
  · intro dst src
    obtain ⟨hnd, hnoat⟩ := DepInv_depMapMerge dst src
    unfold mergeDependencies
    have hcomm : (List.map renderDep (depMapMerge dst src)).filter
        (fun d => (parseDependency d).fst == "") =
        List.map renderDep ((depMapMerge dst src).filter
          (fun q => (parseDependency (renderDep q)).fst == "")) :=
      List.filter_map renderDep (depMapMerge dst src)
    rw [hcomm, List.length_map]
    have hcong : (depMapMerge dst src).filter
        (fun q => (parseDependency (renderDep q)).fst == "") =
        (depMapMerge dst src).filter (fun q => q.fst == "") := by
      apply List.filter_congr
      intro q hq
      rw [parseDependency_renderDep (hnoat q hq)]
    rw [hcong]
    exact filter_key_length_le_one hnd ""

theorem not_mem_keys_any_false {m : List (String × String)} {pkg : String}
    (h : pkg ∉ depKeys m) : (m.any fun p => p.fst == pkg) = false := by
  rw [List.any_eq_false]
  intro p hp
  simp only [beq_iff_eq]
  intro hk
  exact h (hk ▸ List.mem_map_of_mem Prod.fst hp)

/-- With pairwise-distinct parsed package names, the `dst` pass fills
the map with exactly the parsed pairs, in order. -/
theorem foldl_setDep_append :
    ∀ (l : List String) (m : List (String × String)),
      ((l.map (fun d => (parseDependency d).fst)).Nodup) →
      (∀ d ∈ l, (parseDependency d).fst ∉ depKeys m) →
      l.foldl (fun m dep => setDep m (parseDependency dep).fst (parseDependency dep).snd) m =
        m ++ l.map parseDependency := by
  intro l
  induction l with
  | nil => intro m _ _; simp
  | cons d l ih =>
    intro m hnd hdisj
    have hnd' := List.nodup_cons.mp hnd
    have hstep : setDep m (parseDependency d).fst (parseDependency d).snd =
        m ++ [parseDependency d] := by
      unfold setDep
      rw [not_mem_keys_any_false (hdisj d (by simp))]
      simp
    rw [List.foldl_cons, hstep, ih (m ++ [parseDependency d]) hnd'.2]
    · simp
    · intro d' hd'
      unfold depKeys
      rw [List.map_append]
      intro hmem
      rcases List.mem_append.mp hmem with hm | hm
      · exact hdisj d' (List.mem_cons_of_mem _ hd') hm
      · simp only [List.map_cons, List.map_nil, List.mem_singleton] at hm
        apply hnd'.1
        show (parseDependency d).fst ∈ List.map (fun d => (parseDependency d).fst) l
        rw [← hm]
        exact List.mem_map_of_mem (fun d => (parseDependency d).fst) hd'

theorem depLookup_of_mem_nodup {m : List (String × String)} {pkg v : String}
    (hnd : (depKeys m).Nodup) (hmem : (pkg, v) ∈ m) : depLookup m pkg = some v := by
  induction m with
  | nil => simp at hmem
  | cons q m ih =>
    have hnd' := List.nodup_cons.mp hnd
    rcases List.mem_cons.mp hmem with heq | hmem'
    · rw [← heq]
      unfold depLookup
      rw [List.find?_cons_of_pos _ (by simp)]
      rfl
    · have hne : ¬((q.fst == pkg) = true) := by
        simp only [beq_iff_eq]
        intro hk
        exact hnd'.1 (hk ▸ List.mem_map_of_mem Prod.fst hmem')
      unfold depLookup
      have hfind : List.find? (fun p : String × String => p.fst == pkg) (q :: m) =
          List.find? (fun p : String × String => p.fst == pkg) m :=
        List.find?_cons_of_neg m hne
      rw [hfind]
      exact ih hnd'.2 hmem'

theorem fst_update_eq (pkg w : String) (p : String × String) :
    ((fun p => if p.fst == pkg then (pkg, w) else p) p).fst = p.fst := by
  by_cases hp : (p.fst == pkg) = true
  · simp only [if_pos hp]
    exact (beq_iff_eq.mp hp).symm
  · simp only [if_neg hp]

theorem find?_map_update (m : List (String × String)) (pkg pkg' w : String) :
    (m.map (fun p => if p.fst == pkg' then (pkg', w) else p)).find?
        (fun p => p.fst == pkg) =
      (m.find? (fun p => p.fst == pkg)).map
        (fun p => if p.fst == pkg' then (pkg', w) else p) := by
  rw [List.find?_map]
  have hfun : ((fun p : String × String => p.fst == pkg) ∘
      fun p => if p.fst == pkg' then (pkg', w) else p) =
      (fun p : String × String => p.fst == pkg) := by
    funext p
    simp only [Function.comp_apply]
    exact congrArg (fun s => s == pkg) (fst_update_eq pkg' w p)
  rw [hfun]

theorem depLookup_sdiu_ne {m : List (String × String)} {pkg pkg' w : String}
    (hne : pkg ≠ pkg') : depLookup (setDepIfUnversioned m pkg' w) pkg = depLookup m pkg := by
  unfold setDepIfUnversioned
  split
  · next hf =>
    unfold depLookup
    rw [List.find?_append]
    cases hm : m.find? (fun p => p.fst == pkg) with
    | some q => rfl
    | none =>
      have hfind : List.find? (fun p : String × String => p.fst == pkg) [(pkg', w)] =
          List.find? (fun p : String × String => p.fst == pkg) [] :=
        List.find?_cons_of_neg [] (by simpa using fun h => hne h.symm)
      rw [hfind]
      rfl
  · next p₀ hf =>
    split
    · unfold depLookup
      rw [find?_map_update]
      cases hm : m.find? (fun p => p.fst == pkg) with
      | none => rfl
      | some q =>
        have hq : (q.fst == pkg) = true := by
          have := List.find?_some hm
          simpa using this
        have hqne : ¬((q.fst == pkg') = true) := by
          simp only [beq_iff_eq]
          intro h
          exact hne ((beq_iff_eq.mp hq).symm.trans h)
        simp only [Option.map_some']
        rw [if_neg hqne]
    · rfl

theorem depLookup_sdiu_nonempty {m : List (String × String)} {pkg v : String}
    (h : depLookup m pkg = some v) (hv : v ≠ "") (pkg' w : String) :
    depLookup (setDepIfUnversioned m pkg' w) pkg = some v := by
  by_cases hne : pkg = pkg'
  · subst hne
    unfold depLookup at h
    cases hf : m.find? (fun p => p.fst == pkg) with
    | none => rw [hf] at h; simp at h
    | some q =>
      rw [hf] at h
      have hqv : q.snd = v := by simpa using h
      unfold setDepIfUnversioned
      split
      · next hf' => rw [hf'] at hf; simp at hf
      · next p₀ hf' =>
        have hp₀ : p₀ = q := by rw [hf'] at hf; simpa using hf
        subst hp₀
        rw [if_neg (by simp [hqv, hv])]
        unfold depLookup
        rw [hf]
        simp [hqv]
  · rw [depLookup_sdiu_ne hne]
    exact h

theorem depLookup_sdiu_set {m : List (String × String)} {pkg : String} (w : String)
    (h : depLookup m pkg = none ∨ depLookup m pkg = some "") :
    depLookup (setDepIfUnversioned m pkg w) pkg = some w := by
  unfold depLookup at h
  unfold setDepIfUnversioned
  split
  · next hf =>
    unfold depLookup
    rw [List.find?_append, hf]
    have hfind : List.find? (fun p : String × String => p.fst == pkg) [(pkg, w)] =
        some (pkg, w) :=
      List.find?_cons_of_pos [] (by simp)
    rw [hfind]
    rfl
  · next p₀ hf =>
    rw [hf] at h
    have hq : p₀.snd = "" := by
      rcases h with h | h
      · simp at h
      · simpa using h
    rw [if_pos (by simp [hq])]
    unfold depLookup
    rw [find?_map_update, hf]
    have hqk : (p₀.fst == pkg) = true := by
      have := List.find?_some hf
      simpa using this
    simp only [Option.map_some']
    rw [if_pos hqk]

theorem fold_sdiu_preserve_nonempty {pkg v : String} (hv : v ≠ "") :
    ∀ (l : List String) (m : List (String × String)), depLookup m pkg = some v →
      depLookup
        (l.foldl (fun m dep =>
          setDepIfUnversioned m (parseDependency dep).fst (parseDependency dep).snd) m)
        pkg = some v := by
  intro l
  induction l with
  | nil => intro m h; exact h
  | cons d l ih =>
    intro m h
    exact ih _ (depLookup_sdiu_nonempty h hv _ _)

theorem fold_sdiu_src {pkg : String} :
    ∀ (l : List String) (m : List (String × String)),
      ((l.map (fun d => (parseDependency d).fst)).Nodup) →
      (∃ s ∈ l, (parseDependency s).fst = pkg ∧ (parseDependency s).snd ≠ "") →
      (depLookup m pkg = none ∨ depLookup m pkg = some "") →
      ∃ u, u ≠ "" ∧
        depLookup
          (l.foldl (fun m dep =>
            setDepIfUnversioned m (parseDependency dep).fst (parseDependency dep).snd) m)
          pkg = some u := by
  intro l
  induction l with
  | nil =>
    intro m _ hex _
    simp at hex
  | cons s₀ l ih =>
    intro m hnd hex h0
    have hnd' := List.nodup_cons.mp hnd
    obtain ⟨s, hs, hsf, hsv⟩ := hex
    by_cases hk : (parseDependency s₀).fst = pkg
    · have hs0 : (parseDependency s₀).snd ≠ "" := by
        rcases List.mem_cons.mp hs with rfl | hs'
        · exact hsv
        · exfalso
          apply hnd'.1
          show (parseDependency s₀).fst ∈ List.map (fun d => (parseDependency d).fst) l
          rw [hk, ← hsf]
          exact List.mem_map_of_mem (fun d => (parseDependency d).fst) hs'
      rw [List.foldl_cons]
      have hstep : depLookup
          (setDepIfUnversioned m (parseDependency s₀).fst (parseDependency s₀).snd) pkg =
          some (parseDependency s₀).snd := by
        rw [hk]
        exact depLookup_sdiu_set _ h0
      exact ⟨(parseDependency s₀).snd, hs0,
        fold_sdiu_preserve_nonempty hs0 l _ hstep⟩
    · have hs' : s ∈ l := by
        rcases List.mem_cons.mp hs with rfl | hs'
        · exact absurd hsf hk
        · exact hs'
      rw [List.foldl_cons]
      refine ih _ hnd'.2 ⟨s, hs', hsf, hsv⟩ ?_
      rw [depLookup_sdiu_ne (fun h => hk h.symm)]
      exact h0

theorem mergeDependencies_mem_of_lookup {dst src : List String} {pkg u : String}
    (h : depLookup (depMapMerge dst src) pkg = some u) (hu : u ≠ "") :
    (pkg ++ "@" ++ u) ∈ mergeDependencies dst src := by
  unfold depLookup at h
  cases hf : (depMapMerge dst src).find? (fun p => p.fst == pkg) with
  | none => rw [hf] at h; simp at h
  | some q =>
    rw [hf] at h
    have hqv : q.snd = u := by simpa using h
    have hqk : q.fst = pkg := by
      have := List.find?_some hf
      simpa using this
    have hqm : q ∈ depMapMerge dst src := List.mem_of_find?_eq_some hf
    unfold mergeDependencies
    have : renderDep q = pkg ++ "@" ++ u := by
      unfold renderDep
      rw [if_neg (by simp [hqv, hu]), hqk, hqv]
    rw [← this]
    exact List.mem_map_of_mem renderDep hqm

/-- C6 (amended): for dependency lists in which each package name occurs
at most once per list, the merged list keeps a version-carrying entry
for every package that either side declares with a non-empty version;
and the concrete merge of `["foo"]` with `["foo@1.2.3"]` yields exactly
`["foo@1.2.3"]` in either argument order. -/
theorem C6_merge_prefers_versioned :
    (∀ (dst src : List String) (pkg : String),
      ((dst.map (fun d => (parseDependency d).fst)).Nodup) →
      ((src.map (fun d => (parseDependency d).fst)).Nodup) →
      (∃ d ∈ dst ++ src, (parseDependency d).fst = pkg ∧ (parseDependency d).snd ≠ "") →
      ∃ v, v ≠ "" ∧ (pkg ++ "@" ++ v) ∈ mergeDependencies dst src) ∧
    mergeDependencies ["foo"] ["foo@1.2.3"] = ["foo@1.2.3"] ∧
    mergeDependencies ["foo@1.2.3"] ["foo"] = ["foo@1.2.3"] := by
  refine ⟨?_, by decide, by decide⟩
  intro dst src pkg hndd hnds hex
  have hm₁ : dst.foldl
      (fun m dep => setDep m (parseDependency dep).fst (parseDependency dep).snd) [] =
      dst.map parseDependency := by
    rw [foldl_setDep_append dst [] hndd (by intro d _; simp [depKeys])]
    simp
  have hkeys₁ : depKeys (dst.map parseDependency) =
      dst.map (fun d => (parseDependency d).fst) := by
    unfold depKeys
    rw [List.map_map]
    rfl
  have hnd₁ : (depKeys (dst.map parseDependency)).Nodup := by
    rw [hkeys₁]; exact hndd
  have hmm : depMapMerge dst src = src.foldl
      (fun m dep => setDepIfUnversioned m (parseDependency dep).fst (parseDependency dep).snd)
      (dst.map parseDependency) := by
    unfold depMapMerge
    rw [hm₁]
  cases hl : depLookup (dst.map parseDependency) pkg with
  | some v =>
    by_cases hv : v = ""
    · subst hv
      obtain ⟨d, hd, hdf, hdv⟩ := hex
      rcases List.mem_append.mp hd with hd' | hd'
      · exfalso
        have hpair : (pkg, (parseDependency d).snd) ∈ dst.map parseDependency := by
          have : parseDependency d = (pkg, (parseDependency d).snd) := by
            rw [← hdf]
          exact this ▸ List.mem_map_of_mem parseDependency hd'
        have := depLookup_of_mem_nodup hnd₁ hpair
        rw [hl] at this
        exact hdv (by simpa using this.symm)
      · obtain ⟨u, hu, hlk⟩ := fold_sdiu_src src _ hnds ⟨d, hd', hdf, hdv⟩ (Or.inr hl)
        exact ⟨u, hu, mergeDependencies_mem_of_lookup (hmm ▸ hlk) hu⟩
    · have hlk := fold_sdiu_preserve_nonempty hv src _ hl
      exact ⟨v, hv, mergeDependencies_mem_of_lookup (hmm ▸ hlk) hv⟩
  | none =>
    obtain ⟨d, hd, hdf, hdv⟩ := hex
    rcases List.mem_append.mp hd with hd' | hd'
    · exfalso
      have hpair : (pkg, (parseDependency d).snd) ∈ dst.map parseDependency := by
        have : parseDependency d = (pkg, (parseDependency d).snd) := by
          rw [← hdf]
        exact this ▸ List.mem_map_of_mem parseDependency hd'
      have := depLookup_of_mem_nodup hnd₁ hpair
      rw [hl] at this
      simp at this
    · obtain ⟨u, hu, hlk⟩ := fold_sdiu_src src _ hnds ⟨d, hd', hdf, hdv⟩ (Or.inl hl)
      exact ⟨u, hu, mergeDependencies_mem_of_lookup (hmm ▸ hlk) hu⟩

/-- Counterexample to C6 as stated: the `dst` list `["foo@1.0.0", "foo"]`
declares a non-empty version for `foo`, yet the merge (the later
unversioned duplicate overwrites the map entry during the `dst` pass)
returns `["foo"]`, whose single entry carries no version. -/
theorem C6_counterexample :
    mergeDependencies ["foo@1.0.0", "foo"] [] = ["foo"] ∧
    (parseDependency "foo@1.0.0").fst = "foo" ∧
    (parseDependency "foo@1.0.0").snd = "1.0.0" ∧
    ¬∃ v, v ≠ "" ∧ ("foo" ++ "@" ++ v) ∈ mergeDependencies ["foo@1.0.0", "foo"] [] := by
  refine ⟨by decide, by decide, by decide, ?_⟩
  rintro ⟨v, hv, hmem⟩
  rw [show mergeDependencies ["foo@1.0.0", "foo"] [] = ["foo"] from by decide] at hmem
  simp only [List.mem_singleton] at hmem
  have hlen := congrArg String.length hmem
  rw [String.length_append, String.length_append] at hlen
  have h3 : "foo".length = 3 := by decide
  have h1 : "@".length = 1 := by decide
  rw [h3, h1] at hlen
  omega

theorem validateVariable_iff (v : Variable) :
    validateVariable v = true ↔
      (v.Name ≠ "" ∧
        (v.Type' = "string" ∨ v.Type' = "int" ∨ v.Type' = "bool" ∨
          v.Type' = "select" ∨ v.Type' = "multiselect") ∧
        ((v.Type' = "select" ∨ v.Type' = "multiselect") → v.Options ≠ [])) := by
  unfold validateVariable
  simp only [Bool.and_eq_true, Bool.or_eq_true, Bool.not_eq_true', beq_iff_eq,
    beq_eq_false_iff_ne, ne_eq, List.isEmpty_eq_false]
  tauto

theorem validateTemplate_iff (t : Template) :
    validateTemplate t = true ↔ ValidTemplateSpec t := by
  unfold validateTemplate ValidTemplateSpec
  simp only [Bool.and_eq_true, Bool.or_eq_true, Bool.not_eq_true', beq_iff_eq,
    beq_eq_false_iff_ne, List.all_eq_true, ne_eq, validateVariable_iff]
  tauto

/-- C4 (amended): when reading and unmarshalling succeed, `Load`
validates exactly the tag-induced constraints — non-empty name, type in
the enumerated set, non-empty version, variable types in the enumerated
set with non-empty options for select/multiselect, plus the per-entry
required fields — and returns a bare `ValidationError` (no partial
result) whenever any of them is violated; in particular an empty name
fails.  An empty Files list, however, is accepted (see the
counterexample). -/
theorem C4_load_validation (fsL : List (String × String))
    (yamlParse : String → Option Template) (path data : String) (t : Template)
    (hread : (fsL.find? (fun p => p.fst == resolveTemplatePath path)).map Prod.snd =
      some data)
    (hparse : yamlParse data = some t) :
    (validateTemplate t = true ↔ ValidTemplateSpec t) ∧
    (¬ValidTemplateSpec t → Load fsL yamlParse path = .error .validationError) ∧
    (ValidTemplateSpec t →
      Load fsL yamlParse path = .ok (rewriteSrc (resolveTemplatePath path) t)) ∧
    (t.Name = "" → Load fsL yamlParse path = .error .validationError) := by
  have hload : Load fsL yamlParse path =
      (if validateTemplate t then .ok (rewriteSrc (resolveTemplatePath path) t)
      else .error .validationError) := by
    unfold Load
    dsimp only
    rw [hread]
    show (match yamlParse data with
      | none => (Except.error (LoadError.parseError (resolveTemplatePath path)) :
          Except LoadError Template)
      | some tmpl =>
        if validateTemplate tmpl = true then
          Except.ok (rewriteSrc (resolveTemplatePath path) tmpl)
        else Except.error LoadError.validationError) = _
    rw [hparse]
  refine ⟨validateTemplate_iff t, ?_, ?_, ?_⟩
  · intro hbad
    rw [hload, if_neg (fun h => hbad ((validateTemplate_iff t).mp h))]
  · intro hgood
    rw [hload, if_pos ((validateTemplate_iff t).mpr hgood)]
  · intro hname
    rw [hload, if_neg ?_]
    intro h
    exact ((validateTemplate_iff t).mp h).1 hname

/-- Counterexample to C4 as stated: a definition with a valid name,
type and version but an *empty Files list* loads successfully — the
validator tags place no requirement on the Files slice. -/
theorem C4_counterexample :
    emptyFilesTmpl.Files = [] ∧
    Load [("svc/template.yaml", "raw")] (fun _ => some emptyFilesTmpl) "svc" =
      .ok emptyFilesTmpl := by
  exact ⟨rfl, rfl⟩

theorem depLookup_setDep (m : List (String × String)) (k v k' : String) :
    depLookup (setDep m k v) k' = if k' = k then some v else depLookup m k' := by
  unfold setDep
  by_cases hc : (m.any fun p => p.fst == k) = true
  · rw [if_pos hc]
    unfold depLookup
    rw [find?_map_update]
    by_cases hk : k' = k
    · subst hk
      have hsome : (m.find? (fun p : String × String => p.fst == k')).isSome := by
        rw [List.find?_isSome]
        obtain ⟨p, hp, hpred⟩ := List.any_eq_true.mp hc
        exact ⟨p, hp, hpred⟩
      obtain ⟨q, hq⟩ := Option.isSome_iff_exists.mp hsome
      have hqk : (q.fst == k') = true := by
        have := List.find?_some hq
        simpa using this
      rw [hq]
      have hqe : q.fst = k' := by simpa using hqk
      simp [hqe]
    · cases hq : m.find? (fun p : String × String => p.fst == k') with
      | none => simp [hk]
      | some q =>
        have hqk : q.fst = k' := by
          have := List.find?_some hq
          simpa using this
        have hne : ¬ q.fst = k := by
          rw [hqk]
          exact hk
        simp [hne, hk]
  · rw [if_neg hc]
    unfold depLookup
    rw [List.find?_append]
    have hcf : (m.any fun p => p.fst == k) = false := by
      revert hc
      cases m.any fun p => p.fst == k <;> simp
    by_cases hk : k' = k
    · subst hk
      have hnone : m.find? (fun p : String × String => p.fst == k') = none := by
        rw [List.find?_eq_none]
        intro p hp
        have := List.any_eq_false.mp hcf p hp
        simpa using this
      have hfind : List.find? (fun p : String × String => p.fst == k') [(k', v)] =
          some (k', v) :=
        List.find?_cons_of_pos [] (by simp)
      rw [hnone, hfind]
      simp
    · have hfind : List.find? (fun p : String × String => p.fst == k') [(k, v)] =
          List.find? (fun p : String × String => p.fst == k') [] :=
        List.find?_cons_of_neg [] (by simpa using fun h => hk h.symm)
      rw [hfind]
      cases hq : m.find? (fun p : String × String => p.fst == k') with
      | none => simp [hk]
      | some q => simp [hk]

theorem depLookup_pushAll (k : String) :
    ∀ (l : List (String × String)) (results : List (String × String)),
      depLookup (pushAll results l) k =
        match lastWins l k with
        | some v => some v
        | none => depLookup results k := by
  intro l
  induction l with
  | nil =>
    intro results
    show depLookup results k = _
    rfl
  | cons q l ih =>
    intro results
    show depLookup (pushAll (setDep results q.fst q.snd) l) k = _
    rw [ih]
    have hrev : (q :: l).reverse = l.reverse ++ [q] := by simp
    unfold lastWins
    rw [hrev, List.find?_append]
    cases hlast : l.reverse.find? (fun p => p.fst == k) with
    | some p => simp
    | none =>
      simp only [Option.none_or]
      by_cases hk : k = q.fst
      · have hfind : List.find? (fun p : String × String => p.fst == k) [q] = some q :=
          List.find?_cons_of_pos [] (by simp [hk])
        rw [hfind, depLookup_setDep, if_pos hk]
        simp
      · have hfind : List.find? (fun p : String × String => p.fst == k) [q] =
            List.find? (fun p : String × String => p.fst == k) [] :=
          List.find?_cons_of_neg [] (by simpa using fun h => hk h.symm)
        rw [hfind, depLookup_setDep, if_neg hk]
        simp

theorem foldlM_seq_prefix {α : Type} (seqf : α → Except String (List (String × String))) :
    ∀ (entries : List α) (acc : List (String × String)),
      entries.foldlM (fun acc a => (seqf a).map (fun l => acc ++ l)) acc =
        (entries.foldlM (fun acc a => (seqf a).map (fun l => acc ++ l)) []).map
          (fun l => acc ++ l) := by
  intro entries
  induction entries with
  | nil =>
    intro acc
    show Except.ok acc = Except.map _ (Except.ok ([] : List (String × String)))
    show Except.ok acc = Except.ok (acc ++ [])
    rw [List.append_nil]
  | cons a entries ih =>
    intro acc
    rw [List.foldlM_cons, List.foldlM_cons]
    cases h : seqf a with
    | error e => rfl
    | ok l₁ =>
      show entries.foldlM _ (acc ++ l₁) = Except.map _ (entries.foldlM _ ([] ++ l₁))
      rw [show ([] ++ l₁ : List (String × String)) = l₁ from by simp]
      rw [ih (acc ++ l₁), ih l₁]
      cases hrest : entries.foldlM (fun acc a => (seqf a).map (fun l => acc ++ l)) [] with
      | error e => rfl
      | ok l₂ =>
        show Except.ok (acc ++ l₁ ++ l₂) = Except.ok (acc ++ (l₁ ++ l₂))
        rw [List.append_assoc]

theorem foldlM_push_rel {α : Type}
    (proc : α → List (String × String) → Except String (List (String × String)))
    (seqf : α → Except String (List (String × String)))
    (hrel : ∀ a results, proc a results = (seqf a).map (pushAll results)) :
    ∀ (entries : List α) (results : List (String × String)),
      entries.foldlM (fun res a => proc a res) results =
        (entries.foldlM (fun acc a => (seqf a).map (fun l => acc ++ l)) []).map
          (pushAll results) := by
  intro entries
  induction entries with
  | nil =>
    intro results
    show Except.ok results = Except.map _ (Except.ok ([] : List (String × String)))
    rfl
  | cons a entries ih =>
    intro results
    rw [List.foldlM_cons, List.foldlM_cons, hrel a results]
    cases h : seqf a with
    | error e => rfl
    | ok l₁ =>
      show entries.foldlM _ (pushAll results l₁) = Except.map _ (entries.foldlM _ ([] ++ l₁))
      rw [show ([] ++ l₁ : List (String × String)) = l₁ from by simp]
      rw [ih (pushAll results l₁), foldlM_seq_prefix seqf entries l₁]
      cases hrest : entries.foldlM (fun acc a => (seqf a).map (fun l => acc ++ l)) [] with
      | error e => rfl
      | ok l₂ =>
        show Except.ok (pushAll (pushAll results l₁) l₂) = Except.ok (pushAll results (l₁ ++ l₂))
        unfold pushAll
        rw [List.foldl_append]

theorem processFile_seq (L : TemplateLang) (fs : Fs) (ctx : Context)
    (srcPath destPath : String) (results : List (String × String)) :
    processFile L fs ctx srcPath destPath results =
      (processFileSeq L fs ctx srcPath destPath).map (pushAll results) := by
  cases hrp : RenderPath L destPath ctx with
  | error e => simp only [processFile, processFileSeq, hrp]; rfl
  | ok rd =>
    simp only [processFile, processFileSeq, hrp]
    by_cases hm : isTemplateFile srcPath = true
    · rw [if_pos hm, if_pos hm]
      generalize stripTemplateExt rd = sd
      cases Render L fs srcPath ctx with
      | error e => rfl
      | ok content => rfl
    · rw [if_neg hm, if_neg hm]
      cases Copy fs srcPath with
      | error e => rfl
      | ok content => rfl

theorem processPath_seq (L : TemplateLang) (fs : Fs) (ctx : Context) :
    ∀ (fuel : Nat) (srcPath destPath : String) (results : List (String × String)),
      processPath L fs ctx fuel srcPath destPath results =
        (processPathSeq L fs ctx fuel srcPath destPath).map (pushAll results) := by
  intro fuel
  induction fuel with
  | zero => intro srcPath destPath results; rfl
  | succ fuel ih =>
    intro srcPath destPath results
    cases hst : statFs fs srcPath with
    | none =>
      simp only [processPath, processPathSeq, hst]
      rfl
    | some entry =>
      cases entry with
      | file c =>
        simp only [processPath, processPathSeq, hst]
        exact processFile_seq L fs ctx srcPath destPath results
      | dir es =>
        cases hrd : readDirFs fs srcPath with
        | none =>
          simp only [processPath, processPathSeq, hst, hrd]
          rfl
        | some entries =>
          simp only [processPath, processPathSeq, hst, hrd]
          exact foldlM_push_rel
            (fun name res =>
              processPath L fs ctx fuel (joinPath srcPath name) (joinPath destPath name) res)
            (fun name =>
              processPathSeq L fs ctx fuel (joinPath srcPath name) (joinPath destPath name))
            (fun name res => ih (joinPath srcPath name) (joinPath destPath name) res)
            entries results

theorem RenderAll_seq (L : TemplateLang) (fs : Fs) (fuel : Nat) (tmpl : Template)
    (ctx : Context) :
    RenderAll L fs fuel tmpl ctx = (RenderAllSeq L fs fuel tmpl ctx).map (pushAll []) := by
  unfold RenderAll RenderAllSeq
  exact foldlM_push_rel
    (fun file res => processPath L fs ctx fuel file.Src file.Dest res)
    (fun file => processPathSeq L fs ctx fuel file.Src file.Dest)
    (fun file res => processPath_seq L fs ctx fuel file.Src file.Dest res)
    tmpl.Files []

theorem foldlM_except_append {α β ε : Type} (f : β → α → Except ε β) :
    ∀ (l₁ l₂ : List α) (b : β),
      (l₁ ++ l₂).foldlM f b =
        match l₁.foldlM f b with
        | .error e => .error e
        | .ok b' => l₂.foldlM f b' := by
  intro l₁
  induction l₁ with
  | nil => intro l₂ b; rfl
  | cons a l₁ ih =>
    intro l₂ b
    rw [List.cons_append, List.foldlM_cons, List.foldlM_cons]
    cases h : f b a with
    | error e => rfl
    | ok b' => exact ih l₂ b'

theorem foldlM_except_cons_error {α β ε : Type} (f : β → α → Except ε β) (a : α)
    (l : List α) (b : β) (e : ε) (h : f b a = .error e) :
    (a :: l).foldlM f b = .error e := by
  rw [List.foldlM_cons, h]
  rfl

/-- C3: on a successful `RenderAll`, the returned mapping agrees at every
destination with the last rendered (destination, content) pair of the
ordered rendering sequence: a later File entry rendering to an
already-present destination silently and unconditionally replaces the
earlier entry, for every template language, tree, template and context. -/
theorem C3_last_write_wins (L : TemplateLang) (fs : Fs) (fuel : Nat) (tmpl : Template)
    (ctx : Context) (m : List (String × String))
    (h : RenderAll L fs fuel tmpl ctx = .ok m) :
    ∃ l, RenderAllSeq L fs fuel tmpl ctx = .ok l ∧
      ∀ k, depLookup m k = lastWins l k := by
  rw [RenderAll_seq] at h
  cases hseq : RenderAllSeq L fs fuel tmpl ctx with
  | error e =>
    rw [hseq] at h
    exact absurd h (by simp [Except.map])
  | ok l =>
    rw [hseq] at h
    have hm : pushAll [] l = m := Except.ok.inj h
    refine ⟨l, rfl, ?_⟩
    intro k
    rw [← hm, depLookup_pushAll k l []]
    cases hlw : lastWins l k with
    | some v => rfl
    | none => rfl

/-- Concrete collision run for C3: both File entries of `tmplC3` render to
the destination "out.txt" and the returned mapping holds the second
entry's content. -/
theorem C3_last_write_wins_witness :
    RenderAll litLang fsC3 1 tmplC3 ⟨[]⟩ = .ok [("out.txt", "second content")] ∧
    ∃ l, RenderAllSeq litLang fsC3 1 tmplC3 ⟨[]⟩ = .ok l ∧
      ∀ k, depLookup [("out.txt", "second content")] k = lastWins l k :=
  ⟨rfl, C3_last_write_wins litLang fsC3 1 tmplC3 ⟨[]⟩ [("out.txt", "second content")] rfl⟩

/-- C7: with the destination path already rendered to `rd` and the source
file's bytes being `c`, a marker-suffixed source stores the content
rendered through the template language under `rd` with the marker suffix
stripped, and any other source stores the bytes `c` unchanged under `rd`
itself. -/
theorem C7_template_marker (L : TemplateLang) (fs : Fs) (ctx : Context)
    (srcPath destPath rd : String) (results : List (String × String)) (c : String)
    (hrp : RenderPath L destPath ctx = .ok rd)
    (hread : readFileFs fs srcPath = some c) :
    (isTemplateFile srcPath = true →
      processFile L fs ctx srcPath destPath results =
        (RenderString L c ctx srcPath).map
          (fun content => setDep results (stripTemplateExt rd) content)) ∧
    (isTemplateFile srcPath = false →
      processFile L fs ctx srcPath destPath results =
        .ok (setDep results rd c)) := by
  have hrender : Render L fs srcPath ctx = RenderString L c ctx srcPath := by
    unfold Render
    rw [hread]
  have hcopy : Copy fs srcPath = .ok c := by
    unfold Copy
    rw [hread]
  constructor
  · intro hm
    simp only [processFile, hrp]
    rw [if_pos hm, hrender]
    generalize stripTemplateExt rd = sd
    cases RenderString L c ctx srcPath with
    | error e => rfl
    | ok content => rfl
  · intro hm
    have hm' : ¬ isTemplateFile srcPath = true := by
      rw [hm]
      exact Bool.false_ne_true
    simp only [processFile, hrp]
    rw [if_neg hm', hcopy]

/-- Concrete marker run for C7: the marker-suffixed file of `fsC7` is
rendered with its suffix stripped from the destination, and the plain
file is copied byte-identically under its unchanged destination. -/
theorem C7_template_marker_witness :
    ((isTemplateFile "config.go.tmpl" = true →
        processFile litLang fsC7 ⟨[]⟩ "config.go.tmpl" "config.go.tmpl" [] =
          (RenderString litLang "hello" ⟨[]⟩ "config.go.tmpl").map
            (fun content => setDep [] (stripTemplateExt "config.go.tmpl") content)) ∧
      (isTemplateFile "config.go.tmpl" = false →
        processFile litLang fsC7 ⟨[]⟩ "config.go.tmpl" "config.go.tmpl" [] =
          .ok (setDep [] "config.go.tmpl" "hello"))) ∧
    processFile litLang fsC7 ⟨[]⟩ "config.go.tmpl" "config.go.tmpl" [] =
      .ok [("config.go", "hello")] ∧
    processFile litLang fsC7 ⟨[]⟩ "data.json" "data.json" [] =
      .ok [("data.json", "bytes")] :=
  ⟨C7_template_marker litLang fsC7 ⟨[]⟩ "config.go.tmpl" "config.go.tmpl" "config.go.tmpl" []
      "hello" rfl rfl,
    rfl, rfl⟩

/-- C8: rendering is fail-fast with no partial result: a parse error is
determined by the parser alone (the report is the same for every
execution function, so the program is never executed), and once any File
entry's processing fails, the whole `RenderAll` call returns that error
and no output mapping at all. -/
theorem C8_fail_fast (L : TemplateLang) (fs : Fs) (fuel : Nat) (tmpl : Template)
    (ctx : Context) (pre post : List File) (file : File) (acc : List (String × String))
    (e : String)
    (hsplit : tmpl.Files = pre ++ file :: post)
    (hpre : pre.foldlM (fun res f => processPath L fs ctx fuel f.Src f.Dest res) [] = .ok acc)
    (herr : processPath L fs ctx fuel file.Src file.Dest acc = .error e) :
    RenderAll L fs fuel tmpl ctx = .error e ∧
    (∀ m, ¬ RenderAll L fs fuel tmpl ctx = .ok m) ∧
    (∀ content name pe, L.parse content = .error pe →
      ∀ L' : TemplateLang, L'.parse = L.parse →
        RenderString L' content ctx name =
          .error ("failed to parse template " ++ name ++ ": " ++ pe)) := by
  have hmain : RenderAll L fs fuel tmpl ctx = .error e := by
    unfold RenderAll
    rw [hsplit,
      foldlM_except_append (fun res file => processPath L fs ctx fuel file.Src file.Dest res)
        pre (file :: post) [],
      hpre]
    exact foldlM_except_cons_error _ file post acc e herr
  refine ⟨hmain, ?_, ?_⟩
  · intro m hok
    rw [hmain] at hok
    exact Except.noConfusion hok
  · intro content name pe hpe L' hL'
    unfold RenderString
    rw [hL', hpe]

/-- Concrete fail-fast run for C8: the second File entry of `tmplC8` hits
a parse error, the whole call returns that error, and the parse report is
exec-independent. -/
theorem C8_fail_fast_witness :
    RenderAll selLang fsC8 1 tmplC8 ⟨[]⟩ =
      .error "failed to parse template bad.go.tmpl: unexpected token" ∧
    (∀ m, ¬ RenderAll selLang fsC8 1 tmplC8 ⟨[]⟩ = .ok m) ∧
    (∀ content name pe, selLang.parse content = .error pe →
      ∀ L' : TemplateLang, L'.parse = selLang.parse →
        RenderString L' content ⟨[]⟩ name =
          .error ("failed to parse template " ++ name ++ ": " ++ pe)) :=
  C8_fail_fast selLang fsC8 1 tmplC8 ⟨[]⟩ [⟨"good.txt", "good.txt"⟩] []
    ⟨"bad.go.tmpl", "bad.go.tmpl"⟩ [("good.txt", "good content")]
    "failed to parse template bad.go.tmpl: unexpected token" rfl rfl rfl

/-- Any reachable identity is an include target of the root template or
of a template stored in the environment. -/
theorem reachT_name_cases (env : Env) {t : Template} {n : String} (h : ReachT env t n) :
    n ∈ t.Includes.map (fun inc => inc.Template) ∨
      ∃ p ∈ env, n ∈ p.snd.Includes.map (fun inc => inc.Template) := by
  induction h with
  | direct hmem => exact Or.inl (List.mem_map_of_mem _ hmem)
  | step hmem hl hr ih =>
    rcases ih with hin | ⟨p, hp, hin⟩
    · obtain ⟨p, hp, hps⟩ := List.mem_map.mp (loadT_mem_snd hl)
      refine Or.inr ⟨p, hp, ?_⟩
      rw [hps]
      exact hin
    · exact Or.inr ⟨p, hp, hin⟩

/-- Concrete acyclic composition for C1: `rootC1` includes `lib`, which
includes `log`; composition succeeds and collects the variables and
files of all three templates. -/
theorem C1_compose_acyclic_witness :
    ∃ c, Compose envC1 rootC1 = .ok c ∧
      c.Variables = dedupApp (fun v : Variable => v.Name) []
        ((reachList envC1 (composeFuel envC1 rootC1) rootC1 [rootC1.Name]).flatMap
          (fun t => t.Variables)) ∧
      c.Files = dedupApp (fun f : File => f.Dest) []
        ((reachList envC1 (composeFuel envC1 rootC1) rootC1 [rootC1.Name]).flatMap
          (fun t => t.Files)) ∧
      (∀ t'' : Template,
        t'' ∈ reachList envC1 (composeFuel envC1 rootC1) rootC1 [rootC1.Name] ↔
          (t'' = rootC1 ∨ ∃ n, ReachT envC1 rootC1 n ∧ loadT envC1 n = some t'')) ∧
      (∀ nm : String, (∃ v ∈ c.Variables, v.Name = nm) ↔
        ∃ t'' ∈ reachList envC1 (composeFuel envC1 rootC1) rootC1 [rootC1.Name],
          ∃ v ∈ t''.Variables, v.Name = nm) ∧
      (∀ d : String, (∃ f ∈ c.Files, f.Dest = d) ↔
        ∃ t'' ∈ reachList envC1 (composeFuel envC1 rootC1) rootC1 [rootC1.Name],
          ∃ f ∈ t''.Files, f.Dest = d) :=
  C1_compose_acyclic envC1 rootC1 rankC1
    (by
      intro n hn
      rcases reachT_name_cases envC1 hn with hin | ⟨p, hp, hin⟩
      · have hn' : n = "lib" := by simpa [rootC1] using hin
        subst hn'
        exact ⟨libC1, rfl⟩
      · have hp' : p = ("lib", libC1) ∨ p = ("log", logC1) := by simpa [envC1] using hp
        rcases hp' with rfl | rfl
        · have hn' : n = "log" := by simpa [libC1] using hin
          subst hn'
          exact ⟨logC1, rfl⟩
        · simp [logC1] at hin)
    (by
      intro n t hn hl inc hi
      rcases reachT_name_cases envC1 hn with hin | ⟨p, hp, hin⟩
      · have hn' : n = "lib" := by simpa [rootC1] using hin
        subst hn'
        have ht : t = libC1 := by
          have h2 : loadT envC1 "lib" = some libC1 := rfl
          rw [h2] at hl
          exact (Option.some.inj hl).symm
        subst ht
        have hinc : inc = { Template := "log", EnabledByDefault := false } := by
          simpa [libC1] using hi
        subst hinc
        decide
      · have hp' : p = ("lib", libC1) ∨ p = ("log", logC1) := by simpa [envC1] using hp
        rcases hp' with rfl | rfl
        · have hn' : n = "log" := by simpa [libC1] using hin
          subst hn'
          have ht : t = logC1 := by
            have h2 : loadT envC1 "log" = some logC1 := rfl
            rw [h2] at hl
            exact (Option.some.inj hl).symm
          subst ht
          simp [logC1] at hi
        · simp [logC1] at hin)
    (by
      intro inc hi
      have hinc : inc = { Template := "lib", EnabledByDefault := false } := by
        simpa [rootC1] using hi
      subst hinc
      decide)
    (by decide) (by decide)

/-- Concrete cyclic composition for C2: `rootC2` reaches the mutual
cycle between `a` and `b`, and both entry points report it. -/
theorem C2_cycle_detection_witness :
    (∃ p, Compose envC2 rootC2 = .error (.circular p) ∧
      p.length ≤ (rootC2.Name :: envC2.map Prod.fst).dedup.length + 1) ∧
    (∃ p, GetAllIncludes envC2 rootC2 = .error (.circular p) ∧
      p.length ≤ (rootC2.Name :: envC2.map Prod.fst).dedup.length + 1) :=
  C2_cycle_detection envC2 rootC2
    (by
      intro n hn
      rcases reachT_name_cases envC2 hn with hin | ⟨p, hp, hin⟩
      · have hn' : n = "a" := by simpa [rootC2] using hin
        subst hn'
        exact ⟨aC2, rfl⟩
      · have hp' : p = ("a", aC2) ∨ p = ("b", bC2) := by simpa [envC2] using hp
        rcases hp' with rfl | rfl
        · have hn' : n = "b" := by simpa [aC2] using hin
          subst hn'
          exact ⟨bC2, rfl⟩
        · have hn' : n = "a" := by simpa [bC2] using hin
          subst hn'
          exact ⟨aC2, rfl⟩)
    (Or.inr ⟨"a", aC2,
      @ReachT.direct envC2 rootC2 ⟨"a", false⟩ (List.Mem.head _),
      rfl,
      @ReachT.step envC2 aC2 ⟨"b", false⟩ bC2 "a" (List.Mem.head _) rfl
        (@ReachT.direct envC2 bC2 ⟨"a", false⟩ (List.Mem.head _))⟩)

/-- Concrete load for C4: a well-formed definition read from the
resolved path validates and loads with its sources rewritten. -/
theorem C4_load_validation_witness :
    (validateTemplate tC4 = true ↔ ValidTemplateSpec tC4) ∧
    (¬ValidTemplateSpec tC4 →
      Load fsLC4 (fun _ => some tC4) "web" = .error .validationError) ∧
    (ValidTemplateSpec tC4 →
      Load fsLC4 (fun _ => some tC4) "web" =
        .ok (rewriteSrc (resolveTemplatePath "web") tC4)) ∧
    (tC4.Name = "" → Load fsLC4 (fun _ => some tC4) "web" = .error .validationError) :=
  C4_load_validation fsLC4 (fun _ => some tC4) "web" "raw4" tC4 rfl rfl

end Blueprint
